import Mathlib

/-!
# docker-switch: a verification development

A shallow embedding of `main.go` of `mrhenry/docker-switch`: the name generator
(`makeAppDomains`), the key path encoder (`makeEtcdKeys`), the event
deduplicator (`extractContainers`) and the body of the reconciliation loop of
`main`, followed by theorems about them.

Go strings are byte sequences; they are embedded as lists of bytes.  Library
functions of Go (`strings.*`, `sort.Strings`) are embedded by their documented
behaviour; the functions of `main.go` are translated statement by statement.
-/

namespace DockerSwitch

/-! ## Go strings -/

/-- One byte of a Go string. -/
abbrev Byte := Fin 256

/-- A Go `string`: an immutable sequence of bytes. -/
abbrev GoString := List Byte

/-- The byte of an ASCII character literal of the source. -/
def byteOf (c : Char) : Byte := Fin.ofNat c.toNat

/-- The bytes of an ASCII string literal of the source. -/
def lit (s : String) : GoString := s.toList.map byteOf

/-- Go's `a < b` on strings: byte-wise lexicographic comparison, a proper prefix
being smaller. -/
def strLess : GoString → GoString → Bool
  | _, [] => false
  | [], _ :: _ => true
  | a :: as, b :: bs => if a < b then true else if b < a then false else strLess as bs

/-- Ascending order on strings, `a ≤ b`, expressed with Go's `<`: not `b < a`. -/
def StrLe (a b : GoString) : Prop := strLess b a = false

instance : DecidableRel StrLe := fun a b => inferInstanceAs (Decidable (strLess b a = false))

/-- Go's `sort.Strings`: sorts ascending with `<` as the less function.  The
order on strings is total and antisymmetric, so the sorted result does not
depend on the sorting algorithm; it is computed here by insertion. -/
def sortStrings (xs : List GoString) : List GoString := List.insertionSort StrLe xs

/-- Go's `strings.IndexByte(s, c)`: index of the first `c` in `s`, or `-1`. -/
def stringsIndexByte : GoString → Byte → Int
  | [], _ => -1
  | b :: bs, c =>
    if b = c then 0
    else
      let r := stringsIndexByte bs c
      if r < 0 then -1 else r + 1

/-- Go's `strings.LastIndexByte(s, c)`: index of the last `c` in `s`, or `-1`. -/
def stringsLastIndexByte : GoString → Byte → Int
  | [], _ => -1
  | b :: bs, c =>
    let r := stringsLastIndexByte bs c
    if 0 ≤ r then r + 1 else if b = c then 0 else -1

/-- Go's `strings.HasPrefix(s, prefix)`. -/
def stringsHasPrefix (s pre : GoString) : Bool := pre.isPrefixOf s

/-- Go's `strings.Split(s, sep)` for a one-byte separator: the substrings
between the occurrences of `sep`; never empty (`[""]` for the empty string). -/
def stringsSplit (sep : Byte) : GoString → List GoString
  | [] => [[]]
  | c :: cs =>
    if c = sep then [] :: stringsSplit sep cs
    else
      match stringsSplit sep cs with
      | [] => [[c]]
      | p :: ps => (c :: p) :: ps

/-- Go's `strings.Join(parts, sep)`. -/
def stringsJoin (sep : GoString) : List GoString → GoString
  | [] => []
  | [p] => p
  | p :: q :: ps => p ++ sep ++ stringsJoin sep (q :: ps)

/-- The slice expression `s[lo:]`; `none` is the run-time panic of an index out
of range. -/
def sliceFrom (s : GoString) (lo : Int) : Option GoString :=
  if 0 ≤ lo ∧ lo ≤ s.length then some (s.drop lo.toNat) else none

/-- The slice expression `s[:hi]`; `none` is the run-time panic of an index out
of range. -/
def sliceTo (s : GoString) (hi : Int) : Option GoString :=
  if 0 ≤ hi ∧ hi ≤ s.length then some (s.take hi.toNat) else none

/-! ## The name generator -/

/-- The function `makeAppDomains` of `main.go`; `none` is a run-time panic (a slice
expression out of range). -/
def makeAppDomains (containerID image name : GoString) : Option (List GoString) :=
  let idx := stringsLastIndexByte image (byteOf '/')
  (if idx ≥ 0 then sliceFrom image (idx + 1) else some image).bind fun image =>
  let idx := stringsIndexByte image (byteOf ':')
  (if idx ≥ 0 then sliceTo image idx else some image).bind fun image =>
  let idx := stringsLastIndexByte name (byteOf '/')
  (if idx ≥ 0 then sliceFrom name (idx + 1) else some name).bind fun name =>
  let names : List GoString := []
  (sliceTo containerID 12).bind fun id12 =>
  let names := names ++ [id12 ++ lit ".switch"]
  let names := names ++ [name ++ lit "." ++ image ++ lit ".switch"]
  (sliceTo containerID 12).bind fun id12 =>
  let names := names ++ [id12 ++ lit "." ++ image ++ lit ".switch"]
  some (sortStrings names)

/-! ## The key path encoder -/

/-- The assignment `parts[i], parts[j] = parts[j], parts[i]`. -/
def swapAt (parts : List GoString) (i j : Nat) : List GoString :=
  (parts.set i (parts.getD j [])).set j (parts.getD i [])

/-- The loop `for i, j := 0, len(parts)-1; i < j; i, j = i+1, j-1 { swap }` of
`makeEtcdKeys`, started at `(i, j)`; `fuel` bounds the number of iterations. -/
def reverseLoop : Nat → List GoString → Nat → Nat → List GoString
  | 0, parts, _, _ => parts
  | fuel + 1, parts, i, j =>
    if i < j then reverseLoop fuel (swapAt parts i j) (i + 1) (j - 1) else parts

/-- The body of the loop of `makeEtcdKeys` for one domain: split, reverse in
place, join, prefix.  The reversal runs at most `len(parts)/2` times, so
`len(parts)` is enough fuel.  `len(parts)-1` is a natural number here: for no
parts it is 0 where Go has -1, and the reversal does not iterate either way
(`strings.Split` returns at least one part). -/
def etcdKey (name : GoString) : GoString :=
  let parts := stringsSplit (byteOf '.') name
  let parts := reverseLoop parts.length parts 0 (parts.length - 1)
  lit "/skydns/" ++ stringsJoin (lit "/") parts

/-- The function `makeEtcdKeys` of `main.go`. -/
def makeEtcdKeys (domains : List GoString) : List GoString :=
  let keys := domains.foldl (fun keys name => keys ++ [etcdKey name]) []
  sortStrings keys

/-! ## The event deduplicator -/

/-- A Go `map[string]string` value: the list of its key/value pairs. -/
abbrev GoMap := List (GoString × GoString)

/-- The index expression `m[key]` on a map: the value, or `""` when `key` is
not in the map. -/
def mapIndex (m : GoMap) (key : GoString) : GoString := (m.lookup key).getD []

/-- The field `Actor` of `docker.APIEvents`; `Attributes` is a map and may be
`nil`. -/
structure APIActor where
  Attributes : Option GoMap

/-- The fields of `docker.APIEvents` that `extractContainers` reads (`Typ` is
the field `Type`). -/
structure APIEvents where
  Typ : GoString
  ID : GoString
  Actor : APIActor

/-- One iteration of the deduplication loop of `extractContainers`, on the
variables `(last, out)`. -/
def dedupStep (acc : GoString × List GoString) (id : GoString) : GoString × List GoString :=
  if id ≠ acc.1 then (id, acc.2 ++ [id]) else acc

/-- The function `extractContainers` of `main.go`.  `out := c[:0]` shares the
array of `c`; the loop writes no cell it has not already read, so `out` is
embedded as a list of its own. -/
def extractContainers (event : APIEvents) : List GoString :=
  let c : List GoString := []
  let c := if event.Typ = lit "container" then c ++ [event.ID] else c
  let c :=
    match event.Actor.Attributes with
    | some attrs =>
      if mapIndex attrs (lit "container") ≠ [] then c ++ [mapIndex attrs (lit "container")]
      else c
    | none => c
  let c := sortStrings c
  let out : List GoString := []
  let last : GoString := []
  (c.foldl dedupStep (last, out)).2

/-! ## The store and the inspector -/

/-- The errors that `main` tells apart: the two etcd error codes it can meet,
and every other error with its message. -/
inductive GoError
  | keyNotFound
  | nodeExist
  | other (msg : GoString)
  deriving DecidableEq

/-- The etcd client's `client.IsKeyNotFound(err)`. -/
def isKeyNotFound : GoError → Bool
  | .keyNotFound => true
  | _ => false

/-- How an iteration of the loop of `main` ends the process, when it does:
`log.Fatal(err)`, or a run-time panic. -/
inductive Fatal
  | logFatal (err : GoError)
  | panic
  deriving DecidableEq

/-- Modelled from the spec: the key-value store behind the etcd client (not
part of this repository), with the interface of section 6: a mapping from path
strings to values, `get`, `create` (error if the path exists), `update` (error
if absent) and `delete` (error if absent). -/
abbrev Store := GoString → Option GoString

/-- The store with `key` bound to `value`. -/
def Store.put (s : Store) (key value : GoString) : Store :=
  fun k => if k = key then some value else s k

/-- The store without `key`. -/
def Store.erase (s : Store) (key : GoString) : Store :=
  fun k => if k = key then none else s k

/-- Modelled from the spec: `get(path)`: the value, or "not found". -/
def Store.get (s : Store) (key : GoString) : Except GoError GoString :=
  match s key with
  | some v => .ok v
  | none => .error .keyNotFound

/-- Modelled from the spec: `create(path, value)`: error if the path exists. -/
def Store.create (s : Store) (key value : GoString) : Except GoError Store :=
  match s key with
  | some _ => .error .nodeExist
  | none => .ok (s.put key value)

/-- Modelled from the spec: `update(path, value)`: error if the path is
absent. -/
def Store.update (s : Store) (key value : GoString) : Except GoError Store :=
  match s key with
  | some _ => .ok (s.put key value)
  | none => .error .keyNotFound

/-- Modelled from the spec: `delete(path)`: error if the path is absent. -/
def Store.delete (s : Store) (key : GoString) : Except GoError Store :=
  match s key with
  | some _ => .ok (s.erase key)
  | none => .error .keyNotFound

/-- A mutation requested of the store. -/
inductive Op
  | create (key value : GoString)
  | update (key value : GoString)
  | delete (key : GoString)
  deriving DecidableEq

/-- The state that an iteration of `main` acts on: the store, and the list of
the mutations requested of it so far, oldest first (a request is listed
whether or not the store answers with an error). -/
structure World where
  store : Store
  ops : List Op

/-- The call `kapi.Create(ctx, key, value)`: the new state and the error. -/
def kapiCreate (w : World) (key value : GoString) : World × Option GoError :=
  match w.store.create key value with
  | .ok s => (⟨s, w.ops ++ [.create key value]⟩, none)
  | .error err => (⟨w.store, w.ops ++ [.create key value]⟩, some err)

/-- The call `kapi.Update(ctx, key, value)`: the new state and the error. -/
def kapiUpdate (w : World) (key value : GoString) : World × Option GoError :=
  match w.store.update key value with
  | .ok s => (⟨s, w.ops ++ [.update key value]⟩, none)
  | .error err => (⟨w.store, w.ops ++ [.update key value]⟩, some err)

/-- The call `kapi.Delete(ctx, key, nil)`: the new state and the error. -/
def kapiDelete (w : World) (key : GoString) : World × Option GoError :=
  match w.store.delete key with
  | .ok s => (⟨s, w.ops ++ [.delete key]⟩, none)
  | .error err => (⟨w.store, w.ops ++ [.delete key]⟩, some err)

/-- The `NetworkSettings` of a `docker.Container`, as far as `main` reads it. -/
structure NetworkSettings where
  IPAddress : GoString

/-- The `Config` of a `docker.Container`, as far as `main` reads it. -/
structure Config where
  Image : GoString

/-- The fields of `docker.Container` that `main` reads; the two pointer fields
may be `nil`. -/
structure Container where
  Name : GoString
  Config : Option Config
  NetworkSettings : Option NetworkSettings

/-- The two results of `dkr.InspectContainer(containerID)`: the container
(possibly `nil`) and the error (possibly `nil`), given by its message
`err.Error()`. -/
structure Inspection where
  info : Option Container
  err : Option GoString

/-! ## The reconciliation engine -/

/-- The type `Entry` of `main.go`. -/
structure Entry where
  Domains : List GoString
  Keys : List GoString
  Addr : GoString
  deriving DecidableEq

/-- The library functions that `main` applies to an `Entry` and its address,
taken as parameters: `json.Marshal(&e)`, `json.Unmarshal(data, &entry)` for a
`nil` pointer `entry` (the pointer afterwards, which stays `nil` on the JSON
value `null`, or the error), and the verb `%q` of `fmt.Sprintf`. -/
structure GoLib where
  marshal : Entry → Except GoString GoString
  unmarshal : GoString → Except GoString (Option Entry)
  quote : GoString → GoString

/-- The value `fmt.Sprintf("\x7b\"host\":%q\x7d", addr)` written at a key path. -/
def envelope (L : GoLib) (addr : GoString) : GoString :=
  lit "\x7b\"host\":" ++ L.quote addr ++ lit "\x7d"

/-- The variable `action` of `main`, which holds `"set"` or `"del"`. -/
inductive Action
  | set
  | del
  deriving DecidableEq

/-- The variables of `main` that the inspection of a container determines. -/
structure Observed where
  action : Action
  ipAddr : GoString
  image : GoString
  name : GoString
  deriving DecidableEq

/-- Lines 51 to 73 of `main`: inspect the container and classify. -/
def classify (insp : Inspection) : Except Fatal Observed :=
  let action := Action.set
  let ipAddr : GoString := []
  let image : GoString := []
  let name : GoString := []
  let info := insp.info
  let err := insp.err
  let (action, err) :=
    match err with
    | some msg =>
      if stringsHasPrefix msg (lit "No such container:") then (Action.del, none)
      else (action, some msg)
    | none => (action, none)
  match err with
  | some msg => .error (.logFatal (.other msg))
  | none =>
    let (action, ipAddr) :=
      match info with
      | some c =>
        match c.NetworkSettings with
        | some ns => if ns.IPAddress = [] then (Action.del, ipAddr) else (action, ns.IPAddress)
        | none => (action, ipAddr)
      | none => (action, ipAddr)
    let (name, image) :=
      match info with
      | some c =>
        match c.Config with
        | some cfg => (c.Name, cfg.Image)
        | none => (name, image)
      | none => (name, image)
    .ok ⟨action, ipAddr, image, name⟩

/-- The canonical entry path `"/swtch/"+containerID`. -/
def entryPath (containerID : GoString) : GoString := lit "/swtch/" ++ containerID

/-- Lines 77 to 89 of `main`: load the prior state, the variables
`(entry, entryData)`. -/
def loadPrior (L : GoLib) (w : World) (containerID : GoString) :
    Except Fatal (Option Entry × GoString) :=
  match w.store.get (entryPath containerID) with
  | .ok value =>
    match L.unmarshal value with
    | .ok entry => .ok (entry, value)
    | .error msg => .error (.logFatal (.other msg))
  | .error err =>
    if !isKeyNotFound err then .error (.logFatal err) else .ok (none, [])

/-- The loop `for _, key := range entry.Keys` of `main` (lines 95 to 100 and
124 to 129): delete each key, "not found" being ignored. -/
def deleteKeys : List GoString → World → World × Option Fatal
  | [], w => (w, none)
  | key :: rest, w =>
    match kapiDelete w key with
    | (w, some err) =>
      if !isKeyNotFound err then (w, some (.logFatal err)) else deleteKeys rest w
    | (w, none) => deleteKeys rest w

/-- The loop `for _, key := range e.Keys` of `main` (lines 141 to 147): create
each key with the address envelope, every error being fatal. -/
def createKeys (value : GoString) : List GoString → World → World × Option Fatal
  | [], w => (w, none)
  | key :: rest, w =>
    match kapiCreate w key value with
    | (w, some err) => (w, some (.logFatal err))
    | (w, none) => createKeys value rest w

/-- Lines 109 to 114 of `main`: the freshly computed `Entry`; `none` is the
panic of `makeAppDomains`. -/
def newEntry (containerID image name ipAddr : GoString) : Option Entry :=
  match makeAppDomains containerID image name with
  | none => none
  | some domains => some ⟨domains, makeEtcdKeys domains, ipAddr⟩

/-- Lines 91 to 106 of `main`: the action `del`. -/
def deleteAction (entry : Option Entry) (containerID : GoString) (w : World) :
    World × Option Fatal :=
  match entry with
  | none => (w, none)
  | some entry =>
    match deleteKeys entry.Keys w with
    | (w, some f) => (w, some f)
    | (w, none) =>
      match kapiDelete w (entryPath containerID) with
      | (w, some err) => if !isKeyNotFound err then (w, some (.logFatal err)) else (w, none)
      | (w, none) => (w, none)

/-- Lines 108 to 149 of `main`: the action `set`. -/
def setAction (L : GoLib) (obs : Observed) (entry : Option Entry) (entryData : GoString)
    (containerID : GoString) (w : World) : World × Option Fatal :=
  match newEntry containerID obs.image obs.name obs.ipAddr with
  | none => (w, some .panic)
  | some e =>
    match L.marshal e with
    | .error msg => (w, some (.logFatal (.other msg)))
    | .ok newEntryData =>
      let written : Option (World × Option Fatal) :=
        match entry with
        | some entry =>
          if newEntryData = entryData then none
          else
            match deleteKeys entry.Keys w with
            | (w, some f) => some (w, some f)
            | (w, none) =>
              match kapiUpdate w (entryPath containerID) newEntryData with
              | (w, some err) => some (w, some (.logFatal err))
              | (w, none) => some (w, none)
        | none =>
          match kapiCreate w (entryPath containerID) newEntryData with
          | (w, some err) => some (w, some (.logFatal err))
          | (w, none) => some (w, none)
      match written with
      | none => (w, none)
      | some (w, some f) => (w, some f)
      | some (w, none) => createKeys (envelope L e.Addr) e.Keys w

/-- What one iteration of the inner loop of `main` leaves: the store, the
mutations it requested of the store (oldest first), and how it ended the
process, if it did (`none`: the iteration completed). -/
structure Outcome where
  store : Store
  ops : List Op
  fatal : Option Fatal

/-- The body of the inner loop of `main` (lines 51 to 149) for one container
identifier: the inspection result `insp` of the container and the store `st`
before. -/
def reconcile (L : GoLib) (insp : Inspection) (containerID : GoString) (st : Store) : Outcome :=
  let w : World := ⟨st, []⟩
  match classify insp with
  | .error f => ⟨w.store, w.ops, some f⟩
  | .ok obs =>
    match loadPrior L w containerID with
    | .error f => ⟨w.store, w.ops, some f⟩
    | .ok (entry, entryData) =>
      let r :=
        match obs.action with
        | .del => deleteAction entry containerID w
        | .set => setAction L obs entry entryData containerID w
      ⟨r.1.store, r.1.ops, r.2⟩

/-! ## Stand-ins for running the engine on concrete inputs -/

/-- The store with no path. -/
def emptyStore : Store := fun _ => none

/-- A stand-in for `json.Marshal` on an `Entry`: a tag byte, then the address
and the keys separated by the byte 0. -/
def demoMarshal (e : Entry) : GoString :=
  byteOf 'E' :: stringsJoin [0] (e.Addr :: e.Keys)

/-- A stand-in for `json.Unmarshal` into a `nil` pointer to an `Entry`: `null`
leaves the pointer `nil`, the output of `demoMarshal` gives back the address
and the keys, everything else is an error. -/
def demoUnmarshal (data : GoString) : Except GoString (Option Entry) :=
  if data = lit "null" then .ok none
  else
    match data with
    | [] => .error (lit "unexpected end of input")
    | b :: rest =>
      if b = byteOf 'E' then
        match stringsSplit 0 rest with
        | [] => .error (lit "invalid character")
        | addr :: keys => .ok (some ⟨[], keys, addr⟩)
      else .error (lit "invalid character")

/-- A stand-in for the library functions of `GoLib`. -/
def demoLib : GoLib where
  marshal := fun e => .ok (demoMarshal e)
  unmarshal := demoUnmarshal
  quote := fun s => lit "\"" ++ s ++ lit "\""

/-- An inspection result of a running container with the address
`10.0.0.5`. -/
def demoRunning : Inspection :=
  ⟨some ⟨lit "/myredis", some ⟨lit "registry.example.com/library/redis:7"⟩,
    some ⟨lit "10.0.0.5"⟩⟩, none⟩

/-- The inspection result of a container that does not exist. -/
def demoGone : Inspection := ⟨none, some (lit "No such container: a1b2c3d4e5f67890")⟩

/-- The container identifier of the example of the spec. -/
def demoID : GoString := lit "a1b2c3d4e5f67890"

/-- A prior `Entry` with two key paths, as `demoMarshal` stores it. -/
def demoPrior : Entry := ⟨[], [lit "/skydns/switch/old", lit "/skydns/switch/redis/old"],
  lit "10.0.0.4"⟩

/-- A store that holds `demoPrior` at the canonical entry path of `demoID` and
the first of its two key paths only. -/
def demoStore : Store :=
  (emptyStore.put (entryPath demoID) (demoMarshal demoPrior)).put (lit "/skydns/switch/old")
    (envelope demoLib (lit "10.0.0.4"))

/-- The `Entry` that the action `set` computes for `demoID` and
`demoRunning`. -/
def demoFresh : Entry :=
  ⟨[lit "a1b2c3d4e5f6.redis.switch", lit "a1b2c3d4e5f6.switch", lit "myredis.redis.switch"],
    [lit "/skydns/switch/a1b2c3d4e5f6", lit "/skydns/switch/redis/a1b2c3d4e5f6",
      lit "/skydns/switch/redis/myredis"],
    lit "10.0.0.5"⟩

/-- What `classify` makes of `demoRunning`. -/
def demoObserved : Observed :=
  ⟨.set, lit "10.0.0.5", lit "registry.example.com/library/redis:7", lit "/myredis"⟩

/-- An inspection result of a container that exists, with a `Config` and
without `NetworkSettings`. -/
def demoNoNetwork : Inspection := ⟨some ⟨lit "/web", some ⟨lit "nginx"⟩, none⟩, none⟩

/-- An event of type `container` whose identifier is also the actor attribute
`container`. -/
def containerEvent (X : GoString) : APIEvents :=
  ⟨lit "container", X, ⟨some [(lit "container", X)]⟩⟩

/-! ## The specification's words -/

/-- In the spec's words: `s` with everything up to and including its last `c`
removed (`s` itself when `c` does not occur). -/
def dropThroughLast (c : Byte) (s : GoString) : GoString :=
  (s.reverse.takeWhile (fun b => b ≠ c)).reverse

/-- In the spec's words: `s` with everything from its first `c` onward removed
(`s` itself when `c` does not occur). -/
def dropFromFirst (c : Byte) (s : GoString) : GoString :=
  s.takeWhile (fun b => b ≠ c)

/-- In the spec's words: the normalized image. -/
def normImage (image : GoString) : GoString :=
  dropFromFirst (byteOf ':') (dropThroughLast (byteOf '/') image)

/-- In the spec's words: the normalized name. -/
def normName (name : GoString) : GoString := dropThroughLast (byteOf '/') name

/-- In the spec's words: the key path of a domain: the discovery root followed
by the `.`-separated labels in reversed order, joined with `/`. -/
def keyPathOf (d : GoString) : GoString :=
  lit "/skydns/" ++ stringsJoin (lit "/") (stringsSplit (byteOf '.') d).reverse

/-- In the spec's words (section 6): the address envelope, the JSON object
with the one member `host` whose value is the quoted address; `quoted` is the
address as a quoted string.  The braces are the bytes 123 and 125. -/
def addressEnvelope (quoted : GoString) : GoString :=
  [123] ++ lit "\"host\":" ++ quoted ++ [125]

/-- In the spec's words: the quoted address that an address envelope carries:
what stands between the opening `host` member name and the closing brace. -/
def hostOfEnvelope (value : GoString) : GoString :=
  (value.drop ([123] ++ lit "\"host\":").length).dropLast

/-- In the words of the claim on invertibility: the domain of a key path:
remove the prefix `"/skydns/"`, split on `/`, reverse, join with `.`. -/
def domainOfKey (key : GoString) : GoString :=
  stringsJoin (lit ".")
    (stringsSplit (byteOf '/') (key.drop (lit "/skydns/").length)).reverse

/-- In the spec's words: the mutations by which a `set` action that is not a
no-op writes the canonical entry path: with a prior `Entry`, one delete per
key path of it, then one update of the canonical entry path; without, one
create of the canonical entry path. -/
def entryWrite (prior : Option Entry) (containerID data : GoString) : List Op :=
  match prior with
  | some p => p.Keys.map Op.delete ++ [Op.update (entryPath containerID) data]
  | none => [Op.create (entryPath containerID) data]

/-- In the spec's words: the mutations of a `set` action that is not a no-op,
in their order: the writing of the canonical entry path, then one create per
key path of the fresh `Entry`, in the order of its keys. -/
def setSequence (L : GoLib) (prior : Option Entry) (containerID : GoString) (e : Entry)
    (data : GoString) : List Op :=
  entryWrite prior containerID data ++ e.Keys.map (fun k => Op.create k (envelope L e.Addr))

/-- An inspection result of a running container whose name is the first 12
bytes of `demoID`. -/
def demoSelfNamed : Inspection :=
  ⟨some ⟨lit "/a1b2c3d4e5f6", some ⟨lit "redis"⟩, some ⟨lit "10.0.0.5"⟩⟩, none⟩

/-! ## The order on strings -/

theorem strLess_irrefl (a : GoString) : strLess a a = false := by
  induction a with
  | nil => rfl
  | cons x xs ih => simp [strLess, ih]

theorem strLess_asymm : ∀ a b : GoString, strLess a b = true → strLess b a = false
  | _, [], h => by simp [strLess] at h
  | [], _ :: _, _ => by simp [strLess]
  | x :: xs, y :: ys, h => by
    rcases lt_trichotomy x y with hxy | hxy | hxy
    · simp [strLess, hxy, not_lt_of_gt hxy]
    · subst hxy
      simp only [strLess, lt_self_iff_false, if_false] at h ⊢
      exact strLess_asymm xs ys h
    · simp [strLess, hxy, not_lt_of_gt hxy] at h

theorem strLess_trans : ∀ a b c : GoString,
    strLess a b = true → strLess b c = true → strLess a c = true
  | _, _, [], _, h => by simp [strLess] at h
  | _, [], _ :: _, h, _ => by simp [strLess] at h
  | [], _ :: _, _ :: _, _, _ => by simp [strLess]
  | x :: xs, y :: ys, z :: zs, h₁, h₂ => by
    rcases lt_trichotomy x y with hxy | hxy | hxy
    · rcases lt_trichotomy y z with hyz | hyz | hyz
      · simp [strLess, lt_trans hxy hyz]
      · subst hyz; simp [strLess, hxy]
      · simp [strLess, hyz, not_lt_of_gt hyz] at h₂
    · subst hxy
      rcases lt_trichotomy x z with hyz | hyz | hyz
      · simp [strLess, hyz]
      · subst hyz
        simp only [strLess, lt_self_iff_false, if_false] at h₁ h₂ ⊢
        exact strLess_trans xs ys zs h₁ h₂
      · simp [strLess, hyz, not_lt_of_gt hyz] at h₂
    · simp [strLess, hxy, not_lt_of_gt hxy] at h₁

theorem strLess_total : ∀ a b : GoString,
    strLess a b = false → strLess b a = false → a = b
  | [], [], _, _ => rfl
  | [], _ :: _, h, _ => by simp [strLess] at h
  | _ :: _, [], _, h => by simp [strLess] at h
  | x :: xs, y :: ys, h₁, h₂ => by
    rcases lt_trichotomy x y with hxy | hxy | hxy
    · simp [strLess, hxy] at h₁
    · subst hxy
      simp only [strLess, lt_self_iff_false, if_false] at h₁ h₂
      rw [strLess_total xs ys h₁ h₂]
    · simp [strLess, hxy] at h₂

theorem StrLe.refl (a : GoString) : StrLe a a := strLess_irrefl a

theorem StrLe.total (a b : GoString) : StrLe a b ∨ StrLe b a := by
  unfold StrLe
  cases h : strLess b a
  · exact Or.inl rfl
  · exact Or.inr (strLess_asymm b a h)

theorem StrLe.antisymm {a b : GoString} (h₁ : StrLe a b) (h₂ : StrLe b a) : a = b :=
  strLess_total a b h₂ h₁

theorem StrLe.trans {a b c : GoString} (h₁ : StrLe a b) (h₂ : StrLe b c) : StrLe a c := by
  unfold StrLe at *
  cases h : strLess c a
  · rfl
  · -- c < a, a ≤ b, b ≤ c
    cases hcb : strLess c b
    · rcases Bool.eq_false_or_eq_true (strLess b c) with hbc | hbc
      · have := strLess_trans b c a hbc h
        rw [this] at h₁; cases h₁
      · have : b = c := strLess_total b c hbc hcb
        subst this
        rw [h] at h₁; cases h₁
    · rw [hcb] at h₂; cases h₂

theorem sortStrings_sorted (xs : List GoString) : List.Sorted StrLe (sortStrings xs) :=
  haveI : IsTotal GoString StrLe := ⟨StrLe.total⟩
  haveI : IsTrans GoString StrLe := ⟨fun _ _ _ => StrLe.trans⟩
  List.sorted_insertionSort StrLe xs

theorem sortStrings_perm (xs : List GoString) : List.Perm (sortStrings xs) xs :=
  List.perm_insertionSort StrLe xs

theorem sortStrings_length (xs : List GoString) : (sortStrings xs).length = xs.length :=
  (sortStrings_perm xs).length_eq

theorem mem_sortStrings {xs : List GoString} {x : GoString} : x ∈ sortStrings xs ↔ x ∈ xs :=
  (sortStrings_perm xs).mem_iff

/-- A sorted permutation of a list is its `sortStrings`: the result of
`sort.Strings` does not depend on the sorting algorithm. -/
theorem eq_sortStrings_of_sorted_perm {xs ys : List GoString} (hs : List.Sorted StrLe ys)
    (hp : List.Perm ys xs) : ys = sortStrings xs :=
  haveI : IsAntisymm GoString StrLe := ⟨fun _ _ => StrLe.antisymm⟩
  List.eq_of_perm_of_sorted (hp.trans (sortStrings_perm xs).symm) hs (sortStrings_sorted xs)

/-! ## Index functions and slices -/

theorem stringsLastIndexByte_neg (c : Byte) :
    ∀ s : GoString, stringsLastIndexByte s c < 0 → c ∉ s
  | [], _ => by simp
  | b :: bs, h => by
    have ih := stringsLastIndexByte_neg c bs
    simp only [stringsLastIndexByte] at h
    split at h
    · omega
    · split at h
      · omega
      · rename_i h₁ h₂
        simp only [List.mem_cons, not_or]
        exact ⟨fun e => h₂ e.symm, ih (by omega)⟩

theorem stringsLastIndexByte_nonneg (c : Byte) :
    ∀ s : GoString, 0 ≤ stringsLastIndexByte s c →
      ∃ pre post, s = pre ++ c :: post ∧ c ∉ post ∧ stringsLastIndexByte s c = pre.length
  | [], h => by simp [stringsLastIndexByte] at h
  | b :: bs, h => by
    have ih := stringsLastIndexByte_nonneg c bs
    simp only [stringsLastIndexByte] at h ⊢
    by_cases h₁ : 0 ≤ stringsLastIndexByte bs c
    · obtain ⟨pre, post, e, hp, hl⟩ := ih h₁
      refine ⟨b :: pre, post, by simp [e], hp, ?_⟩
      simp [h₁, hl]
    · have hn := stringsLastIndexByte_neg c bs (by omega)
      simp only [h₁, if_false] at h ⊢
      by_cases h₂ : b = c
      · exact ⟨[], bs, by simp [h₂], hn, by simp [h₂]⟩
      · simp [h₂] at h

theorem stringsIndexByte_neg (c : Byte) :
    ∀ s : GoString, stringsIndexByte s c < 0 → c ∉ s
  | [], _ => by simp
  | b :: bs, h => by
    have ih := stringsIndexByte_neg c bs
    simp only [stringsIndexByte] at h
    split at h
    · omega
    · rename_i h₁
      split at h
      · rename_i h₂
        simp only [List.mem_cons, not_or]
        exact ⟨fun e => h₁ e.symm, ih h₂⟩
      · omega

theorem stringsIndexByte_nonneg (c : Byte) :
    ∀ s : GoString, 0 ≤ stringsIndexByte s c →
      ∃ pre post, s = pre ++ c :: post ∧ c ∉ pre ∧ stringsIndexByte s c = pre.length
  | [], h => by simp [stringsIndexByte] at h
  | b :: bs, h => by
    have ih := stringsIndexByte_nonneg c bs
    simp only [stringsIndexByte] at h ⊢
    by_cases h₁ : b = c
    · exact ⟨[], bs, by simp [h₁], by simp, by simp [h₁]⟩
    · simp only [h₁, if_false] at h ⊢
      by_cases h₂ : stringsIndexByte bs c < 0
      · simp [h₂] at h
      · obtain ⟨pre, post, e, hp, hl⟩ := ih (by omega)
        refine ⟨b :: pre, post, by simp [e], ?_, ?_⟩
        · simp only [List.mem_cons, not_or]
          exact ⟨fun e => h₁ e.symm, hp⟩
        · simp [h₂, hl]

theorem dropThroughLast_of_not_mem {c : Byte} {s : GoString} (h : c ∉ s) :
    dropThroughLast c s = s := by
  unfold dropThroughLast
  rw [List.takeWhile_eq_self_iff.mpr, List.reverse_reverse]
  intro x hx
  have : x ≠ c := fun e => h (e ▸ List.mem_reverse.mp hx)
  simpa using this

theorem dropThroughLast_append_cons {c : Byte} (pre : GoString) {post : GoString}
    (h : c ∉ post) : dropThroughLast c (pre ++ c :: post) = post := by
  unfold dropThroughLast
  have hrev : (pre ++ c :: post).reverse = post.reverse ++ c :: pre.reverse := by simp
  rw [hrev, List.takeWhile_append_of_pos, List.takeWhile_cons_of_neg (by simp)]
  · simp
  · intro x hx
    have : x ≠ c := fun e => h (e ▸ List.mem_reverse.mp hx)
    simpa using this

theorem dropFromFirst_of_not_mem {c : Byte} {s : GoString} (h : c ∉ s) :
    dropFromFirst c s = s := by
  unfold dropFromFirst
  rw [List.takeWhile_eq_self_iff]
  intro x hx
  have : x ≠ c := fun e => h (e ▸ hx)
  simpa using this

theorem dropFromFirst_append_cons {c : Byte} {pre : GoString} (post : GoString)
    (h : c ∉ pre) : dropFromFirst c (pre ++ c :: post) = pre := by
  unfold dropFromFirst
  rw [List.takeWhile_append_of_pos, List.takeWhile_cons_of_neg (by simp)]
  · simp
  · intro x hx
    have : x ≠ c := fun e => h (e ▸ hx)
    simpa using this

/-- The statements `if idx := strings.LastIndexByte(s, c); idx >= 0 { s = s[idx+1:] }`
never panic and compute `dropThroughLast`. -/
theorem sliceFrom_lastIndexByte (c : Byte) (s : GoString) :
    (if stringsLastIndexByte s c ≥ 0 then sliceFrom s (stringsLastIndexByte s c + 1)
      else some s) = some (dropThroughLast c s) := by
  by_cases h : stringsLastIndexByte s c ≥ 0
  · obtain ⟨pre, post, e, hp, hl⟩ := stringsLastIndexByte_nonneg c s h
    rw [if_pos h, hl]
    subst e
    rw [dropThroughLast_append_cons pre hp]
    have : (0 : Int) ≤ (pre.length : Int) + 1 ∧
        (pre.length : Int) + 1 ≤ ((pre ++ c :: post).length : Int) := by
      simp only [List.length_append, List.length_cons]; omega
    have ht : ((pre.length : Int) + 1).toNat = pre.length + 1 := by omega
    simp only [sliceFrom, this, and_self, if_true, ht]
    simp
  · rw [if_neg h, dropThroughLast_of_not_mem (stringsLastIndexByte_neg c s (by omega))]

/-- The statements `if idx := strings.IndexByte(s, c); idx >= 0 { s = s[:idx] }`
never panic and compute `dropFromFirst`. -/
theorem sliceTo_indexByte (c : Byte) (s : GoString) :
    (if stringsIndexByte s c ≥ 0 then sliceTo s (stringsIndexByte s c) else some s) =
      some (dropFromFirst c s) := by
  by_cases h : stringsIndexByte s c ≥ 0
  · obtain ⟨pre, post, e, hp, hl⟩ := stringsIndexByte_nonneg c s h
    rw [if_pos h, hl]
    subst e
    rw [dropFromFirst_append_cons post hp]
    have : (0 : Int) ≤ (pre.length : Int) ∧
        (pre.length : Int) ≤ ((pre ++ c :: post).length : Int) := by
      simp only [List.length_append, List.length_cons]; omega
    simp only [sliceTo, this, and_self, if_true]
    simp
  · rw [if_neg h, dropFromFirst_of_not_mem (stringsIndexByte_neg c s (by omega))]

/-! ## The name generator -/

/-- The three names of the spec, in the order of the spec. -/
theorem makeAppDomains_eq (containerID image name : GoString) :
    makeAppDomains containerID image name =
      if 12 ≤ containerID.length then
        some (sortStrings [containerID.take 12 ++ lit ".switch",
          normName name ++ lit "." ++ normImage image ++ lit ".switch",
          containerID.take 12 ++ lit "." ++ normImage image ++ lit ".switch"])
      else none := by
  simp only [makeAppDomains, sliceFrom_lastIndexByte, Option.some_bind, sliceTo_indexByte]
  by_cases h : 12 ≤ containerID.length
  · have h' : (0 : Int) ≤ 12 ∧ (12 : Int) ≤ (containerID.length : Int) := by omega
    simp [sliceTo, h, h', normName, normImage]
  · have h' : ¬ ((0 : Int) ≤ 12 ∧ (12 : Int) ≤ (containerID.length : Int)) := by omega
    simp [sliceTo, h, h']

/-! ## The key path encoder -/

theorem getD_append_cons (pre : List GoString) (x : GoString) (rest : List GoString)
    (d : GoString) : (pre ++ x :: rest).getD pre.length d = x := by
  induction pre with
  | nil => rfl
  | cons p ps ih => simpa using ih

theorem set_append_cons (pre : List GoString) (x v : GoString) (rest : List GoString) :
    (pre ++ x :: rest).set pre.length v = pre ++ v :: rest := by
  induction pre with
  | nil => rfl
  | cons p ps ih => simp [ih]

/-- One swap of the reversal loop exchanges the two ends of the middle part. -/
theorem swapAt_ends (pre mid post : List GoString) (x y : GoString) :
    swapAt (pre ++ x :: (mid ++ y :: post)) pre.length (pre.length + mid.length + 1) =
      pre ++ y :: (mid ++ x :: post) := by
  have hj : pre.length + mid.length + 1 = (pre ++ x :: mid).length := by
    simp only [List.length_append, List.length_cons]; omega
  have hj' : pre.length + mid.length + 1 = (pre ++ y :: mid).length := by
    simp only [List.length_append, List.length_cons]; omega
  have e₁ : pre ++ x :: (mid ++ y :: post) = (pre ++ x :: mid) ++ y :: post := by simp
  have e₂ : pre ++ y :: (mid ++ y :: post) = (pre ++ y :: mid) ++ y :: post := by simp
  have g : (pre ++ x :: (mid ++ y :: post)).getD (pre.length + mid.length + 1) [] = y := by
    rw [e₁, hj]; exact getD_append_cons _ _ _ _
  have t : (pre ++ y :: (mid ++ y :: post)).set (pre.length + mid.length + 1) x =
      pre ++ y :: (mid ++ x :: post) := by
    rw [e₂, hj', set_append_cons]; simp
  unfold swapAt
  rw [getD_append_cons pre x, set_append_cons pre x, g, t]

/-- The reversal loop, started at the two ends of `mid`, reverses `mid`. -/
theorem reverseLoop_middle : ∀ (fuel : Nat) (mid pre post : List GoString),
    mid.length ≤ fuel →
      reverseLoop fuel (pre ++ mid ++ post) pre.length (pre.length + mid.length - 1) =
        pre ++ mid.reverse ++ post
  | 0, mid, pre, post, h => by
    have : mid = [] := List.length_eq_zero.mp (Nat.le_zero.mp h)
    subst this
    simp [reverseLoop]
  | fuel + 1, [], pre, post, _ => by
    have : ¬ (pre.length < pre.length + 0 - 1) := by omega
    simp [reverseLoop]
  | fuel + 1, [x], pre, post, _ => by
    simp [reverseLoop]
  | fuel + 1, x :: z :: zs, pre, post, h => by
    obtain ⟨mid, y, hm⟩ : ∃ mid y, z :: zs = mid ++ [y] := by
      rcases List.eq_nil_or_concat (z :: zs) with h' | ⟨mid, y, h'⟩
      · cases h'
      · exact ⟨mid, y, by simpa using h'⟩
    rw [hm]
    have hlen : (z :: zs).length = mid.length + 1 := by rw [hm]; simp
    have hfuel : mid.length ≤ fuel := by
      simp only [List.length_cons] at h hlen; omega
    have hj : pre.length + (x :: (mid ++ [y])).length - 1 = pre.length + mid.length + 1 := by
      simp only [List.length_cons, List.length_append, List.length_nil]; omega
    have hlt : pre.length < pre.length + mid.length + 1 := by omega
    have e₁ : pre ++ x :: (mid ++ [y]) ++ post = pre ++ x :: (mid ++ y :: post) := by simp
    rw [hj, e₁, reverseLoop, if_pos hlt, swapAt_ends]
    have ih := reverseLoop_middle fuel mid (pre ++ [y]) (x :: post) hfuel
    have e₂ : pre ++ [y] ++ mid ++ x :: post = pre ++ y :: (mid ++ x :: post) := by simp
    have e₃ : (pre ++ [y]).length = pre.length + 1 := by simp
    have e₄ : pre.length + 1 + mid.length - 1 = pre.length + mid.length + 1 - 1 := by omega
    rw [e₂, e₃, e₄] at ih
    rw [ih]
    simp

/-- The reversal loop of `makeEtcdKeys` has enough fuel and reverses the
labels. -/
theorem reverseLoop_eq_reverse (parts : List GoString) :
    reverseLoop parts.length parts 0 (parts.length - 1) = parts.reverse := by
  have := reverseLoop_middle parts.length parts [] [] (le_refl _)
  simpa using this

theorem etcdKey_eq_keyPathOf (name : GoString) : etcdKey name = keyPathOf name := by
  simp only [etcdKey, keyPathOf, reverseLoop_eq_reverse]

theorem foldl_append_singleton (f : GoString → GoString) (domains acc : List GoString) :
    domains.foldl (fun keys name => keys ++ [f name]) acc = acc ++ domains.map f := by
  induction domains generalizing acc with
  | nil => simp
  | cons d ds ih => simp [ih]

theorem makeEtcdKeys_eq (domains : List GoString) :
    makeEtcdKeys domains = sortStrings (domains.map keyPathOf) := by
  have h : (fun (keys : List GoString) name => keys ++ [etcdKey name]) =
      fun keys name => keys ++ [keyPathOf name] := by
    funext keys name; rw [etcdKey_eq_keyPathOf]
  simp only [makeEtcdKeys, h, foldl_append_singleton, List.nil_append]

/-! ## The event deduplicator -/

theorem strLess_of_le_of_ne {a b : GoString} (h : StrLe a b) (hne : a ≠ b) :
    strLess a b = true := by
  cases hab : strLess a b
  · exact absurd (strLess_total a b hab h) hne
  · rfl

theorem strLess_of_le_of_lt {a b c : GoString} (h₁ : StrLe a b) (h₂ : strLess b c = true) :
    strLess a c = true := by
  by_cases e : a = b
  · rw [e]; exact h₂
  · exact strLess_trans a b c (strLess_of_le_of_ne h₁ e) h₂

theorem StrLe.nil_le (a : GoString) : StrLe [] a := by
  cases a <;> rfl

/-- Membership in the result of the deduplication loop, run on a sorted list
none of whose elements is below `last`. -/
theorem mem_foldl_dedupStep (s : GoString) : ∀ (c : List GoString) (last : GoString)
    (out : List GoString), List.Sorted StrLe c → (∀ y ∈ c, StrLe last y) →
      (s ∈ (c.foldl dedupStep (last, out)).2 ↔ s ∈ out ∨ (s ∈ c ∧ s ≠ last))
  | [], last, out, _, _ => by simp
  | id :: rest, last, out, hs, hl => by
    have hs' : List.Sorted StrLe rest := hs.of_cons
    have hid : ∀ y ∈ rest, StrLe id y := fun y hy => List.rel_of_sorted_cons hs y hy
    rw [List.foldl_cons]
    by_cases hne : id = last
    · have e : dedupStep (last, out) id = (last, out) := by simp [dedupStep, hne]
      rw [e, mem_foldl_dedupStep s rest last out hs'
        (fun y hy => hl y (List.mem_cons_of_mem _ hy))]
      constructor
      · rintro (h | ⟨h, h'⟩)
        · exact Or.inl h
        · exact Or.inr ⟨List.mem_cons_of_mem _ h, h'⟩
      · rintro (h | ⟨h, h'⟩)
        · exact Or.inl h
        · rcases List.mem_cons.mp h with h | h
          · exact absurd (h.trans hne) h'
          · exact Or.inr ⟨h, h'⟩
    · have e : dedupStep (last, out) id = (id, out ++ [id]) := by simp [dedupStep, hne]
      rw [e, mem_foldl_dedupStep s rest id (out ++ [id]) hs' hid]
      constructor
      · rintro (h | ⟨h, h'⟩)
        · rcases List.mem_append.mp h with h | h
          · exact Or.inl h
          · have : s = id := by simpa using h
            exact Or.inr ⟨by simp [this], this ▸ hne⟩
        · refine Or.inr ⟨List.mem_cons_of_mem _ h, fun e => ?_⟩
          subst e
          exact hne (StrLe.antisymm (hid s h) (hl id (List.mem_cons_self _ _)))
      · rintro (h | ⟨h, h'⟩)
        · exact Or.inl (List.mem_append_left _ h)
        · by_cases e : s = id
          · exact Or.inl (by simp [e])
          · rcases List.mem_cons.mp h with h | h
            · exact absurd h e
            · exact Or.inr ⟨h, e⟩

/-- The result of the deduplication loop, run on a sorted list none of whose
elements is below `last`, is strictly ascending. -/
theorem pairwise_foldl_dedupStep : ∀ (c : List GoString) (last : GoString)
    (out : List GoString), List.Sorted StrLe c → (∀ y ∈ c, StrLe last y) →
      List.Pairwise (fun a b => strLess a b = true) out → (∀ x ∈ out, StrLe x last) →
        List.Pairwise (fun a b => strLess a b = true) (c.foldl dedupStep (last, out)).2
  | [], _, _, _, _, hp, _ => by simpa using hp
  | id :: rest, last, out, hs, hl, hp, ho => by
    have hs' : List.Sorted StrLe rest := hs.of_cons
    have hid : ∀ y ∈ rest, StrLe id y := fun y hy => List.rel_of_sorted_cons hs y hy
    rw [List.foldl_cons]
    by_cases hne : id = last
    · have e : dedupStep (last, out) id = (last, out) := by simp [dedupStep, hne]
      rw [e]
      exact pairwise_foldl_dedupStep rest last out hs'
        (fun y hy => hl y (List.mem_cons_of_mem _ hy)) hp ho
    · have e : dedupStep (last, out) id = (id, out ++ [id]) := by simp [dedupStep, hne]
      have hlt : strLess last id = true :=
        strLess_of_le_of_ne (hl id (List.mem_cons_self _ _)) (fun e => hne e.symm)
      rw [e]
      refine pairwise_foldl_dedupStep rest id (out ++ [id]) hs' hid ?_ ?_
      · rw [List.pairwise_append]
        refine ⟨hp, List.pairwise_singleton _ _, fun x hx y hy => ?_⟩
        have : y = id := by simpa using hy
        rw [this]
        exact strLess_of_le_of_lt (ho x hx) hlt
      · intro x hx
        rcases List.mem_append.mp hx with hx | hx
        · exact strLess_asymm _ _ (strLess_of_le_of_lt (ho x hx) hlt)
        · have : x = id := by simpa using hx
          rw [this]; exact StrLe.refl id

/-- The identifiers that `extractContainers` collects before sorting. -/
theorem extractContainers_mem_iff (event : APIEvents) (s : GoString) :
    s ∈ extractContainers event ↔
      s ≠ [] ∧ ((event.Typ = lit "container" ∧ s = event.ID) ∨
        ∃ attrs, event.Actor.Attributes = some attrs ∧ mapIndex attrs (lit "container") ≠ [] ∧
          s = mapIndex attrs (lit "container")) := by
  unfold extractContainers
  simp only []
  rw [mem_foldl_dedupStep s _ [] [] (sortStrings_sorted _) (fun y _ => StrLe.nil_le y),
    mem_sortStrings]
  rcases event with ⟨typ, id, ⟨attrs⟩⟩
  cases attrs with
  | none =>
    by_cases ht : typ = lit "container"
    · simp [ht]; tauto
    · simp [ht]
  | some attrs =>
    by_cases ht : typ = lit "container" <;>
      by_cases ha : mapIndex attrs (lit "container") = [] <;> simp [ht, ha] <;> tauto

theorem extractContainers_pairwise (event : APIEvents) :
    List.Pairwise (fun a b => strLess a b = true) (extractContainers event) := by
  unfold extractContainers
  exact pairwise_foldl_dedupStep _ [] [] (sortStrings_sorted _) (fun y _ => StrLe.nil_le y)
    List.Pairwise.nil (fun x hx => by cases hx)

/-! ## The store operations -/

theorem kapiDelete_fst (w : World) (key : GoString) :
    (kapiDelete w key).1 = ⟨w.store.erase key, w.ops ++ [.delete key]⟩ := by
  unfold kapiDelete Store.delete
  cases h : w.store key with
  | some v => rfl
  | none =>
    have : w.store = w.store.erase key := by
      funext k
      by_cases e : k = key
      · simp [Store.erase, e, h]
      · simp [Store.erase, e]
    simp only []
    rw [← this]

theorem kapiDelete_snd (w : World) (key : GoString) :
    (kapiDelete w key).2 = none ∨ (kapiDelete w key).2 = some .keyNotFound := by
  unfold kapiDelete Store.delete
  cases h : w.store key <;> simp

/-- The loop that deletes keys never ends the process: it requests one delete
per key, in list order, and leaves the store without these keys. -/
theorem deleteKeys_eq : ∀ (keys : List GoString) (w : World),
    deleteKeys keys w =
      (⟨fun k => if k ∈ keys then none else w.store k, w.ops ++ keys.map Op.delete⟩, none)
  | [], w => by simp [deleteKeys]
  | key :: rest, w => by
    have h₁ := kapiDelete_fst w key
    have h₂ := kapiDelete_snd w key
    have ih := deleteKeys_eq rest ⟨w.store.erase key, w.ops ++ [.delete key]⟩
    have hst : (fun k => if k ∈ rest then none else (w.store.erase key) k) =
        fun k => if k ∈ key :: rest then none else w.store k := by
      funext k
      by_cases e : k = key
      · simp [Store.erase, e]
      · simp [Store.erase, e]
    have step : deleteKeys (key :: rest) w = deleteKeys rest (kapiDelete w key).1 := by
      rw [deleteKeys]
      rcases hk : kapiDelete w key with ⟨w', err⟩
      rw [hk] at h₂
      rcases h₂ with h₂ | h₂
      · simp only [] at h₂; subst h₂; rfl
      · simp only [] at h₂; subst h₂; simp [isKeyNotFound]
    rw [step, h₁, ih]
    simp only [hst, List.map_cons, List.append_assoc, List.singleton_append]

/-- When the loop that creates keys completes, every key was absent before,
and it leaves the store with the value at each of them. -/
theorem createKeys_of_completes (value : GoString) : ∀ (keys : List GoString) (w : World),
    (createKeys value keys w).2 = none →
      (createKeys value keys w).1 =
          ⟨fun k => if k ∈ keys then some value else w.store k,
            w.ops ++ keys.map (fun k => Op.create k value)⟩ ∧
        ∀ k ∈ keys, w.store k = none
  | [], w, _ => by simp [createKeys]
  | key :: rest, w, h => by
    rw [createKeys] at h ⊢
    cases hk : w.store key with
    | some v =>
      simp [kapiCreate, Store.create, hk] at h
    | none =>
      have e : kapiCreate w key value =
          (⟨w.store.put key value, w.ops ++ [.create key value]⟩, none) := by
        simp [kapiCreate, Store.create, hk]
      rw [e] at h ⊢
      simp only [] at h ⊢
      obtain ⟨ih₁, ih₂⟩ := createKeys_of_completes value rest _ h
      have hrest : ∀ k ∈ rest, k ≠ key ∧ w.store k = none := by
        intro k hk'
        have := ih₂ k hk'
        by_cases e' : k = key
        · simp [Store.put, e'] at this
        · exact ⟨e', by simpa [Store.put, e'] using this⟩
      refine ⟨?_, ?_⟩
      · rw [ih₁]
        congr 1
        · funext k
          by_cases e' : k = key
          · simp [Store.put, e']
          · simp [Store.put, e']
        · simp
      · intro k hk'
        rcases List.mem_cons.mp hk' with hk' | hk'
        · rw [hk']; exact hk
        · exact (hrest k hk').2

theorem loadPrior_of_absent (L : GoLib) (w : World) (containerID : GoString)
    (h : w.store (entryPath containerID) = none) :
    loadPrior L w containerID = .ok (none, []) := by
  simp [loadPrior, Store.get, h, isKeyNotFound]

theorem loadPrior_of_present (L : GoLib) (w : World) (containerID : GoString)
    {value : GoString} (h : w.store (entryPath containerID) = some value) :
    loadPrior L w containerID =
      match L.unmarshal value with
      | .ok entry => .ok (entry, value)
      | .error msg => .error (.logFatal (.other msg)) := by
  simp [loadPrior, Store.get, h]

/-! ## The action `set` -/

/-- The action `set` completes only if the fresh `Entry` could be computed and
serialized. -/
theorem setAction_fresh_of_completes (L : GoLib) (obs : Observed) (entry : Option Entry)
    (entryData containerID : GoString) (w : World)
    (h : (setAction L obs entry entryData containerID w).2 = none) :
    ∃ e data, newEntry containerID obs.image obs.name obs.ipAddr = some e ∧
      L.marshal e = .ok data := by
  unfold setAction at h
  cases hne : newEntry containerID obs.image obs.name obs.ipAddr with
  | none => simp [hne] at h
  | some e =>
    cases hm : L.marshal e with
    | error msg => simp [hne, hm] at h
    | ok data => exact ⟨e, data, rfl, hm⟩

/-- The action `set` with a prior `Entry` whose bytes are the fresh ones does
nothing. -/
theorem setAction_same (L : GoLib) (obs : Observed) (prior : Entry)
    (containerID : GoString) (w : World) {e : Entry} {data : GoString}
    (hne : newEntry containerID obs.image obs.name obs.ipAddr = some e)
    (hm : L.marshal e = .ok data) :
    setAction L obs (some prior) data containerID w = (w, none) := by
  simp [setAction, hne, hm]

/-- The action `set` with a prior `Entry` whose bytes differ, when it
completes. -/
theorem setAction_changed (L : GoLib) (obs : Observed) (prior : Entry)
    (entryData containerID : GoString) (w : World) {e : Entry} {data : GoString}
    (hne : newEntry containerID obs.image obs.name obs.ipAddr = some e)
    (hm : L.marshal e = .ok data) (hd : data ≠ entryData)
    (h : (setAction L obs (some prior) entryData containerID w).2 = none) :
    (∃ v, (if entryPath containerID ∈ prior.Keys then none
        else w.store (entryPath containerID)) = some v) ∧
      (∀ k ∈ e.Keys, Store.put (fun k => if k ∈ prior.Keys then none else w.store k)
        (entryPath containerID) data k = none) ∧
      (setAction L obs (some prior) entryData containerID w).1 =
        ⟨fun k => if k ∈ e.Keys then some (envelope L e.Addr)
          else Store.put (fun k => if k ∈ prior.Keys then none else w.store k)
            (entryPath containerID) data k,
          w.ops ++ prior.Keys.map Op.delete ++ [.update (entryPath containerID) data] ++
            e.Keys.map (fun k => Op.create k (envelope L e.Addr))⟩ := by
  unfold setAction at h ⊢
  simp only [hne, hm, hd, if_false, deleteKeys_eq] at h ⊢
  cases hk : (if entryPath containerID ∈ prior.Keys then none
      else w.store (entryPath containerID)) with
  | none => simp [kapiUpdate, Store.update, hk] at h
  | some v =>
    have e₁ : kapiUpdate ⟨fun k => if k ∈ prior.Keys then none else w.store k,
          w.ops ++ prior.Keys.map Op.delete⟩ (entryPath containerID) data =
        (⟨Store.put (fun k => if k ∈ prior.Keys then none else w.store k)
            (entryPath containerID) data,
          w.ops ++ prior.Keys.map Op.delete ++ [.update (entryPath containerID) data]⟩,
          none) := by
      simp [kapiUpdate, Store.update, hk]
    rw [e₁] at h ⊢
    simp only [] at h ⊢
    obtain ⟨c₁, c₂⟩ := createKeys_of_completes _ _ _ h
    exact ⟨⟨v, rfl⟩, c₂, c₁⟩

/-- The action `set` without a prior `Entry`, when it completes. -/
theorem setAction_created (L : GoLib) (obs : Observed)
    (entryData containerID : GoString) (w : World) {e : Entry} {data : GoString}
    (hne : newEntry containerID obs.image obs.name obs.ipAddr = some e)
    (hm : L.marshal e = .ok data)
    (h : (setAction L obs none entryData containerID w).2 = none) :
    w.store (entryPath containerID) = none ∧
      (∀ k ∈ e.Keys, w.store.put (entryPath containerID) data k = none) ∧
      (setAction L obs none entryData containerID w).1 =
        ⟨fun k => if k ∈ e.Keys then some (envelope L e.Addr)
          else w.store.put (entryPath containerID) data k,
          w.ops ++ [.create (entryPath containerID) data] ++
            e.Keys.map (fun k => Op.create k (envelope L e.Addr))⟩ := by
  unfold setAction at h ⊢
  simp only [hne, hm] at h ⊢
  cases hk : w.store (entryPath containerID) with
  | some v => simp [kapiCreate, Store.create, hk] at h
  | none =>
    have e₁ : kapiCreate w (entryPath containerID) data =
        (⟨w.store.put (entryPath containerID) data,
          w.ops ++ [.create (entryPath containerID) data]⟩, none) := by
      simp [kapiCreate, Store.create, hk]
    rw [e₁] at h ⊢
    simp only [] at h ⊢
    obtain ⟨c₁, c₂⟩ := createKeys_of_completes _ _ _ h
    exact ⟨trivial, c₂, c₁⟩

/-! ## One iteration of the loop of `main` -/

theorem reconcile_of_classify (L : GoLib) (insp : Inspection) (containerID : GoString)
    (st : Store) {obs : Observed} (hc : classify insp = .ok obs) :
    reconcile L insp containerID st =
      match loadPrior L ⟨st, []⟩ containerID with
      | .error f => ⟨st, [], some f⟩
      | .ok (entry, entryData) =>
        match obs.action with
        | .del =>
          ⟨(deleteAction entry containerID ⟨st, []⟩).1.store,
            (deleteAction entry containerID ⟨st, []⟩).1.ops,
            (deleteAction entry containerID ⟨st, []⟩).2⟩
        | .set =>
          ⟨(setAction L obs entry entryData containerID ⟨st, []⟩).1.store,
            (setAction L obs entry entryData containerID ⟨st, []⟩).1.ops,
            (setAction L obs entry entryData containerID ⟨st, []⟩).2⟩ := by
  simp only [reconcile, hc]
  cases loadPrior L ⟨st, []⟩ containerID with
  | error f => rfl
  | ok r =>
    obtain ⟨entry, entryData⟩ := r
    cases obs.action <;> rfl

/-- After a `set` iteration that completes, the canonical entry path holds the
serialization of the fresh `Entry`. -/
theorem reconcile_set_stores_entry (L : GoLib) (insp : Inspection) (containerID : GoString)
    (st : Store) {obs : Observed} (hc : classify insp = .ok obs) (hs : obs.action = .set)
    (hf : (reconcile L insp containerID st).fatal = none) :
    ∃ e data, newEntry containerID obs.image obs.name obs.ipAddr = some e ∧
      L.marshal e = .ok data ∧
      (reconcile L insp containerID st).store (entryPath containerID) = some data := by
  rw [reconcile_of_classify L insp containerID st hc] at hf ⊢
  cases hst : st (entryPath containerID) with
  | none =>
    rw [loadPrior_of_absent L ⟨st, []⟩ containerID hst] at hf ⊢
    simp only [hs] at hf ⊢
    obtain ⟨e, data, hne, hm⟩ := setAction_fresh_of_completes _ _ _ _ _ _ hf
    obtain ⟨_, c₂, c₃⟩ := setAction_created L obs [] containerID ⟨st, []⟩ hne hm hf
    refine ⟨e, data, hne, hm, ?_⟩
    rw [c₃]
    have hnot : entryPath containerID ∉ e.Keys := by
      intro hmem
      have := c₂ _ hmem
      simp [Store.put] at this
    simp [hnot, Store.put]
  | some v =>
    rw [loadPrior_of_present L ⟨st, []⟩ containerID hst] at hf ⊢
    cases hu : L.unmarshal v with
    | error msg => simp [hu] at hf
    | ok entry =>
      simp only [hu, hs] at hf ⊢
      obtain ⟨e, data, hne, hm⟩ := setAction_fresh_of_completes _ _ _ _ _ _ hf
      refine ⟨e, data, hne, hm, ?_⟩
      cases entry with
      | none =>
        obtain ⟨c₁, _, _⟩ := setAction_created L obs v containerID ⟨st, []⟩ hne hm hf
        have c₁' : st (entryPath containerID) = none := c₁
        rw [hst] at c₁'; cases c₁'
      | some prior =>
        by_cases hd : data = v
        · subst hd
          rw [setAction_same L obs prior containerID ⟨st, []⟩ hne hm]
          exact hst
        · obtain ⟨_, c₂, c₃⟩ :=
            setAction_changed L obs prior v containerID ⟨st, []⟩ hne hm hd hf
          rw [c₃]
          have hnot : entryPath containerID ∉ e.Keys := by
            intro hmem
            have := c₂ _ hmem
            simp [Store.put] at this
          simp [hnot, Store.put]

/-! ## The claims -/

/-- C3. Set-reconciliation is idempotent: when a `set` iteration completes
without a fatal error, a second iteration on the resulting store, with the
same identifier and the same inspection result, requests no mutation of the
store and leaves it unchanged.  The JSON library is a parameter; what is used
of it is that the serialization of an `Entry` never decodes to a `nil`
pointer. -/
theorem set_reconcile_idempotent (L : GoLib) (insp : Inspection) (containerID : GoString)
    (st : Store) (obs : Observed)
    (hL : ∀ e data, L.marshal e = .ok data → L.unmarshal data ≠ .ok none)
    (hc : classify insp = .ok obs) (hs : obs.action = .set)
    (hf : (reconcile L insp containerID st).fatal = none) :
    (reconcile L insp containerID (reconcile L insp containerID st).store).ops = [] ∧
      (reconcile L insp containerID (reconcile L insp containerID st).store).store =
        (reconcile L insp containerID st).store := by
  obtain ⟨e, data, hne, hm, hst⟩ :=
    reconcile_set_stores_entry L insp containerID st hc hs hf
  generalize (reconcile L insp containerID st).store = st₁ at hst ⊢
  rw [reconcile_of_classify L insp containerID st₁ hc,
    loadPrior_of_present L ⟨st₁, []⟩ containerID hst]
  cases hu : L.unmarshal data with
  | error msg => exact ⟨rfl, rfl⟩
  | ok entry =>
    cases entry with
    | none => exact absurd hu (hL e data hm)
    | some prior =>
      simp only [hs]
      rw [setAction_same L obs prior containerID ⟨st₁, []⟩ hne hm]
      exact ⟨rfl, rfl⟩

/-- C4. Convergence on change: when the store holds a prior `Entry` whose raw
bytes differ from the serialization of the fresh `Entry`, and the `set`
iteration completes without a fatal error, then afterwards no key path of the
prior `Entry` is in the store unless it is a key path of the fresh one, every
key path of the fresh `Entry` holds the address envelope of the spec, the
object with the member `host`, whose value is the new address, quoted, and
can be read back from the stored bytes, and the canonical entry path holds
the serialization of the fresh `Entry`. -/
theorem set_reconcile_converges (L : GoLib) (insp : Inspection) (containerID : GoString)
    (st : Store) (obs : Observed) (prior e : Entry) (entryData data : GoString)
    (hc : classify insp = .ok obs) (hs : obs.action = .set)
    (hget : st (entryPath containerID) = some entryData)
    (hun : L.unmarshal entryData = .ok (some prior))
    (hne : newEntry containerID obs.image obs.name obs.ipAddr = some e)
    (hm : L.marshal e = .ok data) (hd : entryData ≠ data)
    (hf : (reconcile L insp containerID st).fatal = none) :
    (∀ k ∈ prior.Keys, k ∉ e.Keys → (reconcile L insp containerID st).store k = none) ∧
      (∀ k ∈ e.Keys,
        (reconcile L insp containerID st).store k =
            some (addressEnvelope (L.quote obs.ipAddr)) ∧
          ((reconcile L insp containerID st).store k).map hostOfEnvelope =
            some (L.quote obs.ipAddr)) ∧
      (reconcile L insp containerID st).store (entryPath containerID) = some data := by
  have haddr : e.Addr = obs.ipAddr := by
    unfold newEntry at hne
    cases hmk : makeAppDomains containerID obs.image obs.name with
    | none => simp [hmk] at hne
    | some ds =>
      simp only [hmk, Option.some.injEq] at hne
      rw [← hne]
  have henv : envelope L e.Addr = addressEnvelope (L.quote obs.ipAddr) := by
    rw [haddr]; rfl
  have hhost : hostOfEnvelope (addressEnvelope (L.quote obs.ipAddr)) = L.quote obs.ipAddr := by
    unfold hostOfEnvelope addressEnvelope
    rw [List.append_assoc ([123] ++ lit "\"host\":"), List.drop_left,
      List.dropLast_concat]
  rw [reconcile_of_classify L insp containerID st hc,
    loadPrior_of_present L ⟨st, []⟩ containerID hget] at hf ⊢
  simp only [hun, hs] at hf ⊢
  obtain ⟨⟨v, c₁⟩, c₂, c₃⟩ :=
    setAction_changed L obs prior entryData containerID ⟨st, []⟩ hne hm (Ne.symm hd) hf
  have hprior : entryPath containerID ∉ prior.Keys := by
    intro hmem
    simp [hmem] at c₁
  have hnot : entryPath containerID ∉ e.Keys := by
    intro hmem
    have := c₂ _ hmem
    simp [Store.put] at this
  rw [c₃, henv]
  refine ⟨fun k hk hk' => ?_, fun k hk => ?_, ?_⟩
  · have hne' : k ≠ entryPath containerID := fun e' => hprior (e' ▸ hk)
    simp [hk, hk', Store.put, hne']
  · simp [hk, hhost]
  · simp [hnot, Store.put]

/-- C5. Deletion completeness: when the store holds a prior `Entry` and the
action is `del`, the iteration requests exactly one delete per key path of the
prior `Entry`, in list order, then one delete of the canonical entry path, and
completes, whichever of these paths are absent from the store (whichever
deletes are answered "not found"). -/
theorem delete_reconcile_ops (L : GoLib) (insp : Inspection) (containerID : GoString)
    (st : Store) (obs : Observed) (prior : Entry) (entryData : GoString)
    (hc : classify insp = .ok obs) (hs : obs.action = .del)
    (hget : st (entryPath containerID) = some entryData)
    (hun : L.unmarshal entryData = .ok (some prior)) :
    (reconcile L insp containerID st).ops =
        prior.Keys.map Op.delete ++ [Op.delete (entryPath containerID)] ∧
      (reconcile L insp containerID st).ops.length = prior.Keys.length + 1 ∧
      (reconcile L insp containerID st).fatal = none := by
  rw [reconcile_of_classify L insp containerID st hc,
    loadPrior_of_present L ⟨st, []⟩ containerID hget]
  simp only [hun, hs, deleteAction, deleteKeys_eq]
  have h₁ := kapiDelete_fst ⟨fun k => if k ∈ prior.Keys then none else st k,
    [] ++ prior.Keys.map Op.delete⟩ (entryPath containerID)
  have h₂ := kapiDelete_snd ⟨fun k => if k ∈ prior.Keys then none else st k,
    [] ++ prior.Keys.map Op.delete⟩ (entryPath containerID)
  rcases hk : kapiDelete ⟨fun k => if k ∈ prior.Keys then none else st k,
    [] ++ prior.Keys.map Op.delete⟩ (entryPath containerID) with ⟨w', err⟩
  rw [hk] at h₁ h₂
  simp only [] at h₁ h₂
  subst h₁
  rcases h₂ with h₂ | h₂ <;> subst h₂ <;> simp [isKeyNotFound]

theorem demoLib_marshal_nonnull (e : Entry) (data : GoString)
    (h : demoLib.marshal e = .ok data) : demoLib.unmarshal data ≠ .ok none := by
  have hd : data = demoMarshal e := by
    simp only [demoLib, Except.ok.injEq] at h
    exact h.symm
  subst hd
  have hnull : ¬ (demoMarshal e = lit "null") := by
    intro e'
    have := congrArg List.head? e'
    revert this
    simp only [demoMarshal, List.head?_cons]
    decide
  simp only [demoLib, demoUnmarshal, hnull, if_false]
  simp only [demoMarshal, if_true]
  cases stringsSplit 0 (stringsJoin [0] (e.Addr :: e.Keys)) <;> simp

/-- C1. For an identifier of at least 12 bytes, `makeAppDomains` returns
exactly three names, in ascending byte-lexicographic order, that are a
permutation of the three names of the spec, built from the first 12 bytes of
the identifier, the normalized image and the normalized name. -/
theorem makeAppDomains_sorted_perm (containerID image name : GoString)
    (h : 12 ≤ containerID.length) :
    ∃ names, makeAppDomains containerID image name = some names ∧ names.length = 3 ∧
      List.Sorted StrLe names ∧
      List.Perm names [containerID.take 12 ++ lit ".switch",
        normName name ++ lit "." ++ normImage image ++ lit ".switch",
        containerID.take 12 ++ lit "." ++ normImage image ++ lit ".switch"] := by
  rw [makeAppDomains_eq, if_pos h]
  exact ⟨_, rfl, by rw [sortStrings_length]; rfl, sortStrings_sorted _, sortStrings_perm _⟩

set_option maxRecDepth 20000 in
/-- The example of the spec for C1: the three names of `"a1b2c3d4e5f67890"`,
`"registry.example.com/library/redis:7"` and `"/myredis"`. -/
theorem makeAppDomains_sorted_perm_witness :
    12 ≤ demoID.length ∧
      (∃ names, makeAppDomains demoID (lit "registry.example.com/library/redis:7")
          (lit "/myredis") = some names ∧ names.length = 3 ∧ List.Sorted StrLe names ∧
        List.Perm names [demoID.take 12 ++ lit ".switch",
          normName (lit "/myredis") ++ lit "." ++
            normImage (lit "registry.example.com/library/redis:7") ++ lit ".switch",
          demoID.take 12 ++ lit "." ++
            normImage (lit "registry.example.com/library/redis:7") ++ lit ".switch"]) ∧
      normImage (lit "registry.example.com/library/redis:7") = lit "redis" ∧
      normName (lit "/myredis") = lit "myredis" ∧
      makeAppDomains demoID (lit "registry.example.com/library/redis:7") (lit "/myredis") =
        some [lit "a1b2c3d4e5f6.redis.switch", lit "a1b2c3d4e5f6.switch",
          lit "myredis.redis.switch"] :=
  ⟨by decide, makeAppDomains_sorted_perm demoID _ _ (by decide), by decide, by decide,
    by decide⟩

set_option maxRecDepth 20000 in
/-- C2. `makeEtcdKeys` returns the ascending byte-lexicographic sort of the
key paths of the domains, the key path of a domain being `"/skydns/"` followed
by its `.`-separated labels in reversed order joined with `/`; and
`["abc.redis.switch"]` yields exactly `["/skydns/switch/redis/abc"]`. -/
theorem makeEtcdKeys_sorted_perm (domains : List GoString) :
    List.Sorted StrLe (makeEtcdKeys domains) ∧
      List.Perm (makeEtcdKeys domains) (domains.map keyPathOf) ∧
      makeEtcdKeys [lit "abc.redis.switch"] = [lit "/skydns/switch/redis/abc"] := by
  refine ⟨?_, ?_, by decide⟩
  · rw [makeEtcdKeys_eq]; exact sortStrings_sorted _
  · rw [makeEtcdKeys_eq]; exact sortStrings_perm _

set_option maxRecDepth 20000 in
/-- A run of C3: on the empty store the first `set` iteration completes and
requests mutations, the second requests none. -/
theorem set_reconcile_idempotent_witness :
    (reconcile demoLib demoRunning demoID emptyStore).fatal = none ∧
      (reconcile demoLib demoRunning demoID emptyStore).ops ≠ [] ∧
      ((reconcile demoLib demoRunning demoID
          (reconcile demoLib demoRunning demoID emptyStore).store).ops = [] ∧
        (reconcile demoLib demoRunning demoID
          (reconcile demoLib demoRunning demoID emptyStore).store).store =
          (reconcile demoLib demoRunning demoID emptyStore).store) :=
  ⟨by decide, by decide,
    set_reconcile_idempotent demoLib demoRunning demoID emptyStore demoObserved
      demoLib_marshal_nonnull rfl rfl (by decide)⟩

set_option maxRecDepth 20000 in
/-- A run of C4: from `demoStore`, whose prior `Entry` has another address and
other keys, the `set` iteration completes and the store converges; each of
the three fresh key paths then holds the bytes of the object with the member
`host` and the value `"10.0.0.5"`. -/
theorem set_reconcile_converges_witness :
    demoStore (entryPath demoID) = some (demoMarshal demoPrior) ∧
      demoMarshal demoPrior ≠ demoMarshal demoFresh ∧
      (reconcile demoLib demoRunning demoID demoStore).fatal = none ∧
      addressEnvelope (demoLib.quote demoObserved.ipAddr) =
        lit "\x7b\"host\":\"10.0.0.5\"\x7d" ∧
      (reconcile demoLib demoRunning demoID demoStore).store
        (lit "/skydns/switch/redis/myredis") = some (lit "\x7b\"host\":\"10.0.0.5\"\x7d") ∧
      ((∀ k ∈ demoPrior.Keys, k ∉ demoFresh.Keys →
          (reconcile demoLib demoRunning demoID demoStore).store k = none) ∧
        (∀ k ∈ demoFresh.Keys,
          (reconcile demoLib demoRunning demoID demoStore).store k =
              some (addressEnvelope (demoLib.quote demoObserved.ipAddr)) ∧
            ((reconcile demoLib demoRunning demoID demoStore).store k).map hostOfEnvelope =
              some (demoLib.quote demoObserved.ipAddr)) ∧
        (reconcile demoLib demoRunning demoID demoStore).store (entryPath demoID) =
          some (demoMarshal demoFresh)) :=
  ⟨by decide, by decide, by decide, by decide, by decide,
    set_reconcile_converges demoLib demoRunning demoID demoStore demoObserved demoPrior
      demoFresh (demoMarshal demoPrior) (demoMarshal demoFresh) rfl rfl (by decide) rfl
      (by decide) rfl (by decide) (by decide)⟩

set_option maxRecDepth 20000 in
/-- A run of C5: `demoStore` holds only the first of the two key paths of its
prior `Entry`; the delete of the second is answered "not found" and the
remaining deletes are requested all the same. -/
theorem delete_reconcile_ops_witness :
    demoStore (lit "/skydns/switch/redis/old") = none ∧
      ((reconcile demoLib demoGone demoID demoStore).ops =
          demoPrior.Keys.map Op.delete ++ [Op.delete (entryPath demoID)] ∧
        (reconcile demoLib demoGone demoID demoStore).ops.length = demoPrior.Keys.length + 1 ∧
        (reconcile demoLib demoGone demoID demoStore).fatal = none) :=
  ⟨by decide,
    delete_reconcile_ops demoLib demoGone demoID demoStore ⟨.del, [], [], []⟩ demoPrior
      (demoMarshal demoPrior) rfl rfl (by decide) rfl⟩

/-- When `classify` returns, the action is `del` exactly when the inspection
reported "No such container", or the container has network settings with an
empty address. -/
theorem classify_del_iff (insp : Inspection) (obs : Observed) (h : classify insp = .ok obs) :
    obs.action = .del ↔
      (∃ msg, insp.err = some msg ∧ stringsHasPrefix msg (lit "No such container:") = true) ∨
        ∃ c ns, insp.info = some c ∧ c.NetworkSettings = some ns ∧ ns.IPAddress = [] := by
  obtain ⟨info, err⟩ := insp
  unfold classify at h
  cases err with
  | some msg =>
    by_cases hp : stringsHasPrefix msg (lit "No such container:") = true
    · simp only [hp, if_true] at h
      rcases info with _ | ⟨name, cfg, _ | ns⟩
      · simp only [Except.ok.injEq] at h; subst h; simp [hp]
      · simp only [Except.ok.injEq] at h; subst h; simp [hp]
      · by_cases hip : ns.IPAddress = []
        · simp only [hip, if_true, Except.ok.injEq] at h; subst h; simp [hp]
        · simp only [hip, if_false, Except.ok.injEq] at h; subst h; simp [hp]
    · simp [hp] at h
  | none =>
    rcases info with _ | ⟨name, cfg, _ | ns⟩
    · simp only [Except.ok.injEq] at h; subst h; simp
    · simp only [Except.ok.injEq] at h; subst h; simp
    · by_cases hip : ns.IPAddress = []
      · simp only [hip, if_true, Except.ok.injEq] at h; subst h; simp [hip]
      · simp only [hip, if_false, Except.ok.injEq] at h; subst h; simp [hip]

set_option maxRecDepth 20000 in
/-- C6. The code at an inspection result of an existing container without
network settings: the action is `set` with the empty address, and on the empty
store the iteration completes after requesting the creation of an `Entry` whose
address is empty. -/
theorem classify_no_network_settings :
    classify demoNoNetwork = .ok ⟨.set, [], lit "nginx", lit "/web"⟩ ∧
      (∃ e, newEntry demoID (lit "nginx") (lit "/web") [] = some e ∧ e.Addr = [] ∧
        (reconcile demoLib demoNoNetwork demoID emptyStore).ops.head? =
          some (.create (entryPath demoID) (demoMarshal e))) ∧
      (reconcile demoLib demoNoNetwork demoID emptyStore).fatal = none :=
  ⟨rfl, ⟨⟨[lit "a1b2c3d4e5f6.nginx.switch", lit "a1b2c3d4e5f6.switch", lit "web.nginx.switch"],
      [lit "/skydns/switch/a1b2c3d4e5f6", lit "/skydns/switch/nginx/a1b2c3d4e5f6",
        lit "/skydns/switch/nginx/web"], []⟩, by decide, rfl, by decide⟩, by decide⟩

/-- C7. Deduplication: the list that `extractContainers` returns is strictly
ascending, so it contains no identifier twice; and an event of type
`container` whose identifier `X` (not empty) is also its actor attribute
`container` yields exactly `[X]`. -/
theorem extractContainers_strictly_ascending (event : APIEvents) (X : GoString)
    (hX : X ≠ []) :
    List.Pairwise (fun a b => strLess a b = true) (extractContainers event) ∧
      (extractContainers event).Nodup ∧
      extractContainers (containerEvent X) = [X] := by
  have hp := extractContainers_pairwise event
  refine ⟨hp, hp.imp (fun {a b} hab e => ?_), ?_⟩
  · rw [e, strLess_irrefl] at hab; cases hab
  · have hmem : ∀ s, s ∈ extractContainers (containerEvent X) ↔ s = X := by
      intro s
      rw [extractContainers_mem_iff]
      have hl : mapIndex [(lit "container", X)] (lit "container") = X := by
        simp [mapIndex, List.lookup]
      simp only [containerEvent, Option.some.injEq, exists_eq_left', hl, true_and]
      constructor
      · rintro ⟨_, h | ⟨_, h⟩⟩ <;> exact h
      · intro h; exact ⟨h ▸ hX, Or.inl h⟩
    have hp' := extractContainers_pairwise (containerEvent X)
    cases hl : extractContainers (containerEvent X) with
    | nil =>
      have := (hmem X).mpr rfl
      rw [hl] at this; cases this
    | cons a rest =>
      rw [hl] at hp'
      have ha : a = X := (hmem a).mp (by rw [hl]; exact List.mem_cons_self _ _)
      cases rest with
      | nil => rw [ha]
      | cons b rest' =>
        have hb : b = X := (hmem b).mp (by rw [hl]; simp)
        have := List.rel_of_pairwise_cons hp' (List.mem_cons_self b rest')
        rw [ha, hb, strLess_irrefl] at this; cases this

set_option maxRecDepth 20000 in
/-- A run of C7: the event of type `container` with identifier
`"a1b2c3d4e5f67890"`, which is also its actor attribute `container`. -/
theorem extractContainers_strictly_ascending_witness :
    demoID ≠ [] ∧
      (List.Pairwise (fun a b => strLess a b = true) (extractContainers (containerEvent demoID)) ∧
        (extractContainers (containerEvent demoID)).Nodup ∧
        extractContainers (containerEvent demoID) = [demoID]) :=
  ⟨by decide, extractContainers_strictly_ascending (containerEvent demoID) demoID (by decide)⟩

set_option maxRecDepth 20000 in
/-- C8, as stated, fails: for the event of type `container` whose own
identifier is the empty string, the empty string satisfies the right-hand side
and is not returned (nothing is). -/
theorem extractContainers_empty_id_dropped :
    extractContainers ⟨lit "container", [], ⟨none⟩⟩ = [] ∧
      ¬ (([] : GoString) ∈ extractContainers ⟨lit "container", [], ⟨none⟩⟩ ↔
        ((⟨lit "container", [], ⟨none⟩⟩ : APIEvents).Typ = lit "container" ∧
            ([] : GoString) = (⟨lit "container", [], ⟨none⟩⟩ : APIEvents).ID) ∨
          ∃ attrs, (⟨lit "container", [], ⟨none⟩⟩ : APIEvents).Actor.Attributes = some attrs ∧
            mapIndex attrs (lit "container") ≠ [] ∧
            ([] : GoString) = mapIndex attrs (lit "container")) := by
  have h : extractContainers ⟨lit "container", [], ⟨none⟩⟩ = [] := by decide
  refine ⟨h, ?_⟩
  rw [h]
  intro hiff
  exact absurd (hiff.mpr (Or.inl ⟨rfl, rfl⟩)) (List.not_mem_nil _)

/-- C8, amended. An identifier `s` is in the result of `extractContainers`
if and only if `s` is not empty and either the type of the event is
`"container"` and `s` is the identifier of the event, or the actor attribute
`"container"` is present and not empty and `s` is its value. -/
theorem extractContainers_collects (event : APIEvents) (s : GoString) :
    s ∈ extractContainers event ↔
      s ≠ [] ∧ ((event.Typ = lit "container" ∧ s = event.ID) ∨
        ∃ attrs, event.Actor.Attributes = some attrs ∧ mapIndex attrs (lit "container") ≠ [] ∧
          s = mapIndex attrs (lit "container")) :=
  extractContainers_mem_iff event s

/-- C9. `makeEtcdKeys` returns as many key paths as it is given domains, and
every `Entry` that the action `set` constructs has as many keys as domains,
namely three. -/
theorem entry_keys_length (domains : List GoString) (containerID image name ipAddr : GoString)
    (e : Entry) (h : newEntry containerID image name ipAddr = some e) :
    (makeEtcdKeys domains).length = domains.length ∧
      e.Keys.length = e.Domains.length ∧ e.Domains.length = 3 := by
  have hlen : ∀ ds : List GoString, (makeEtcdKeys ds).length = ds.length := by
    intro ds
    rw [makeEtcdKeys_eq, sortStrings_length, List.length_map]
  refine ⟨hlen domains, ?_⟩
  unfold newEntry at h
  rw [makeAppDomains_eq] at h
  by_cases h12 : 12 ≤ containerID.length
  · simp only [h12, if_true, Option.some.injEq] at h
    subst h
    simp only [hlen, sortStrings_length, List.length_cons, List.length_nil, and_self]
  · simp [h12] at h

set_option maxRecDepth 20000 in
/-- A run of C9: the `Entry` of the example of the spec. -/
theorem entry_keys_length_witness :
    newEntry demoID (lit "registry.example.com/library/redis:7") (lit "/myredis")
        (lit "10.0.0.5") = some demoFresh ∧
      ((makeEtcdKeys demoFresh.Domains).length = demoFresh.Domains.length ∧
        demoFresh.Keys.length = demoFresh.Domains.length ∧ demoFresh.Domains.length = 3) :=
  ⟨by decide,
    entry_keys_length demoFresh.Domains demoID (lit "registry.example.com/library/redis:7")
      (lit "/myredis") (lit "10.0.0.5") demoFresh (by decide)⟩

/-- C10. `makeAppDomains` returns names exactly when the identifier has at
least 12 bytes (none of its slice expressions is then out of range), and
panics exactly when the identifier is shorter. -/
theorem makeAppDomains_isSome_iff (containerID image name : GoString) :
    ((makeAppDomains containerID image name).isSome = true ↔ 12 ≤ containerID.length) ∧
      (makeAppDomains containerID image name = none ↔ containerID.length < 12) := by
  rw [makeAppDomains_eq]
  by_cases h : 12 ≤ containerID.length
  · simp [h]
  · simp only [h, if_false]
    simp; omega

/-! ## Splitting and joining -/

theorem stringsSplit_ne_nil (sep : Byte) : ∀ s : GoString, stringsSplit sep s ≠ []
  | [] => by simp [stringsSplit]
  | c :: cs => by
    have ih := stringsSplit_ne_nil sep cs
    rw [stringsSplit]
    split
    · simp
    · split <;> simp

theorem stringsJoin_cons_cons (sep : GoString) (c : Byte) (p : GoString)
    (ps : List GoString) :
    stringsJoin sep ((c :: p) :: ps) = c :: stringsJoin sep (p :: ps) := by
  cases ps <;> simp [stringsJoin]

/-- Joining the parts of a split gives the string back. -/
theorem stringsJoin_split (sep : Byte) : ∀ s : GoString,
    stringsJoin [sep] (stringsSplit sep s) = s
  | [] => by simp [stringsSplit, stringsJoin]
  | c :: cs => by
    have ih := stringsJoin_split sep cs
    have hne := stringsSplit_ne_nil sep cs
    rw [stringsSplit]
    cases hs : stringsSplit sep cs with
    | nil => exact absurd hs hne
    | cons p ps =>
      rw [hs] at ih
      by_cases hc : c = sep
      · simp only [hc, if_true, stringsJoin, ih]
        simp
      · simp only [hc, if_false, stringsJoin_cons_cons, ih]

theorem stringsSplit_of_not_mem (sep : Byte) : ∀ s : GoString, sep ∉ s →
    stringsSplit sep s = [s]
  | [], _ => by simp [stringsSplit]
  | c :: cs, h => by
    have hc : ¬ c = sep := fun e => h (e ▸ List.mem_cons_self _ _)
    have ih := stringsSplit_of_not_mem sep cs (fun hm => h (List.mem_cons_of_mem _ hm))
    simp [stringsSplit, hc, ih]

theorem stringsSplit_append_sep (sep : Byte) (rest : GoString) : ∀ p : GoString, sep ∉ p →
    stringsSplit sep (p ++ sep :: rest) = p :: stringsSplit sep rest
  | [], _ => by simp [stringsSplit]
  | c :: cs, h => by
    have hc : ¬ c = sep := fun e => h (e ▸ List.mem_cons_self _ _)
    have ih := stringsSplit_append_sep sep rest cs (fun hm => h (List.mem_cons_of_mem _ hm))
    simp [stringsSplit, hc, ih]

/-- Splitting the join of parts without the separator gives the parts back. -/
theorem stringsSplit_join (sep : Byte) : ∀ parts : List GoString, parts ≠ [] →
    (∀ p ∈ parts, sep ∉ p) → stringsSplit sep (stringsJoin [sep] parts) = parts
  | [], h, _ => absurd rfl h
  | [p], _, h => by
    simpa [stringsJoin] using stringsSplit_of_not_mem sep p (h p (by simp))
  | p :: q :: ps, _, h => by
    have ih := stringsSplit_join sep (q :: ps) (by simp)
      (fun x hx => h x (List.mem_cons_of_mem _ hx))
    have hp : sep ∉ p := h p (by simp)
    simp only [stringsJoin, List.append_assoc, List.singleton_append]
    rw [stringsSplit_append_sep sep _ p hp, ih]

/-- Every byte of a part of a split is a byte of the string. -/
theorem mem_of_mem_stringsSplit (sep : Byte) : ∀ (s : GoString) (p : GoString),
    p ∈ stringsSplit sep s → ∀ b ∈ p, b ∈ s
  | [], p, hp, b, hb => by
    simp [stringsSplit] at hp
    subst hp
    cases hb
  | c :: cs, p, hp, b, hb => by
    have ih := mem_of_mem_stringsSplit sep cs
    rw [stringsSplit] at hp
    by_cases hc : c = sep
    · simp only [hc, if_true, List.mem_cons] at hp
      rcases hp with hp | hp
      · subst hp; cases hb
      · exact List.mem_cons_of_mem _ (ih p hp b hb)
    · simp only [hc, if_false] at hp
      cases hs : stringsSplit sep cs with
      | nil =>
        simp only [hs, List.mem_singleton] at hp
        subst hp
        have : b = c := by simpa using hb
        exact this ▸ List.mem_cons_self _ _
      | cons q qs =>
        simp only [hs, List.mem_cons] at hp
        rcases hp with hp | hp
        · subst hp
          rcases List.mem_cons.mp hb with hb | hb
          · exact hb ▸ List.mem_cons_self _ _
          · exact List.mem_cons_of_mem _ (ih q (by simp [hs]) b hb)
        · exact List.mem_cons_of_mem _ (ih p (by simp [hs, hp]) b hb)

/-- The key path of a domain without `/` decodes to the domain. -/
theorem domainOfKey_keyPathOf (d : GoString) (h : byteOf '/' ∉ d) :
    domainOfKey (keyPathOf d) = d := by
  have hslash : lit "/" = [byteOf '/'] := rfl
  have hdot : lit "." = [byteOf '.'] := rfl
  have hparts : ∀ p ∈ (stringsSplit (byteOf '.') d).reverse, byteOf '/' ∉ p := by
    intro p hp hmem
    exact h (mem_of_mem_stringsSplit _ d p (List.mem_reverse.mp hp) _ hmem)
  have hne : (stringsSplit (byteOf '.') d).reverse ≠ [] := by
    simpa using stringsSplit_ne_nil (byteOf '.') d
  unfold domainOfKey keyPathOf
  rw [List.drop_left, hslash, stringsSplit_join _ _ hne hparts, List.reverse_reverse, hdot,
    stringsJoin_split]

/-! ## Normalization -/

theorem not_mem_dropFromFirst (c : Byte) (s : GoString) : c ∉ dropFromFirst c s := by
  intro h
  have := List.mem_takeWhile_imp h
  simp at this

theorem dropFromFirst_initial (c : Byte) (s : GoString) : dropFromFirst c s <+: s :=
  List.takeWhile_prefix _

theorem not_mem_dropThroughLast (c : Byte) (s : GoString) : c ∉ dropThroughLast c s := by
  intro h
  have := List.mem_takeWhile_imp (List.mem_reverse.mp h)
  simp at this

theorem dropThroughLast_final (c : Byte) (s : GoString) : dropThroughLast c s <:+ s := by
  have h : s.reverse.takeWhile (fun b => decide (b ≠ c)) <+: s.reverse := List.takeWhile_prefix _
  have := List.reverse_suffix.mpr h
  rwa [List.reverse_reverse] at this

/-! ## The key paths and the canonical entry paths -/

/-- A key path of `makeEtcdKeys` is the key path of one of the domains. -/
theorem mem_makeEtcdKeys {domains : List GoString} {k : GoString} :
    k ∈ makeEtcdKeys domains ↔ ∃ d ∈ domains, keyPathOf d = k := by
  rw [makeEtcdKeys_eq, mem_sortStrings, List.mem_map]

theorem keyPathOf_ne_entryPath (d containerID : GoString) :
    keyPathOf d ≠ entryPath containerID := by
  intro h
  have h3 := congrArg (fun l : GoString => l.take 3) h
  have e₁ : (keyPathOf d).take 3 = [47, 115, 107] := rfl
  have e₂ : (entryPath containerID).take 3 = [47, 115, 119] := rfl
  simp only [e₁, e₂] at h3
  revert h3
  decide

/-- The loop that creates keys leaves every other path of the store as it
was, however it ends. -/
theorem createKeys_store_of_not_mem (value : GoString) (k : GoString) :
    ∀ (keys : List GoString) (w : World), k ∉ keys →
      (createKeys value keys w).1.store k = w.store k
  | [], w, _ => by simp [createKeys]
  | key :: rest, w, h => by
    have hk : k ≠ key := fun e => h (e ▸ List.mem_cons_self _ _)
    have hrest : k ∉ rest := fun hm => h (List.mem_cons_of_mem _ hm)
    rw [createKeys]
    cases hs : w.store key with
    | some v => simp [kapiCreate, Store.create, hs]
    | none =>
      have e : kapiCreate w key value =
          (⟨w.store.put key value, w.ops ++ [.create key value]⟩, none) := by
        simp [kapiCreate, Store.create, hs]
      rw [e]
      simp only []
      rw [createKeys_store_of_not_mem value k rest _ hrest]
      simp [Store.put, hk]

/-- C15. Order independence of the key path encoder: on a permutation of a
list of domains `makeEtcdKeys` returns the same list of key paths. -/
theorem makeEtcdKeys_perm_invariant (domains domains' : List GoString)
    (h : List.Perm domains domains') : makeEtcdKeys domains = makeEtcdKeys domains' := by
  rw [makeEtcdKeys_eq, makeEtcdKeys_eq]
  exact eq_sortStrings_of_sorted_perm (sortStrings_sorted _)
    ((sortStrings_perm _).trans (h.map keyPathOf))

set_option maxRecDepth 20000 in
/-- A run of C15: the three names of the example of the spec in two orders. -/
theorem makeEtcdKeys_perm_invariant_witness :
    List.Perm [lit "myredis.redis.switch", lit "a1b2c3d4e5f6.switch",
        lit "a1b2c3d4e5f6.redis.switch"]
        [lit "a1b2c3d4e5f6.redis.switch", lit "a1b2c3d4e5f6.switch",
          lit "myredis.redis.switch"] ∧
      makeEtcdKeys [lit "myredis.redis.switch", lit "a1b2c3d4e5f6.switch",
        lit "a1b2c3d4e5f6.redis.switch"] =
        makeEtcdKeys [lit "a1b2c3d4e5f6.redis.switch", lit "a1b2c3d4e5f6.switch",
          lit "myredis.redis.switch"] :=
  ⟨by decide, makeEtcdKeys_perm_invariant _ _ (by decide)⟩

/-- C16. Normalization drops path and tag: in the names that `makeAppDomains`
returns, the image label has neither `/` nor `:` and is a contiguous substring
of the image, the name label has no `/` and is a suffix of the name; an image
without `/` and `:` and a name without `/` are used unchanged. -/
theorem normalization_labels (containerID image name : GoString)
    (h : 12 ≤ containerID.length) :
    ∃ imageLabel nameLabel,
      makeAppDomains containerID image name =
          some (sortStrings [containerID.take 12 ++ lit ".switch",
            nameLabel ++ lit "." ++ imageLabel ++ lit ".switch",
            containerID.take 12 ++ lit "." ++ imageLabel ++ lit ".switch"]) ∧
        byteOf '/' ∉ imageLabel ∧ byteOf ':' ∉ imageLabel ∧ imageLabel <:+: image ∧
        byteOf '/' ∉ nameLabel ∧ nameLabel <:+ name ∧
        (byteOf '/' ∉ image → byteOf ':' ∉ image → imageLabel = image) ∧
        (byteOf '/' ∉ name → nameLabel = name) := by
  refine ⟨normImage image, normName name, ?_, ?_, ?_, ?_, ?_, ?_, ?_, ?_⟩
  · rw [makeAppDomains_eq, if_pos h]
  · intro hm
    exact not_mem_dropThroughLast _ image ((dropFromFirst_initial _ _).subset hm)
  · exact not_mem_dropFromFirst _ _
  · exact (dropFromFirst_initial _ _).isInfix.trans (dropThroughLast_final _ image).isInfix
  · exact not_mem_dropThroughLast _ name
  · exact dropThroughLast_final _ name
  · intro h₁ h₂
    unfold normImage
    rw [dropThroughLast_of_not_mem h₁, dropFromFirst_of_not_mem h₂]
  · intro h₁
    exact dropThroughLast_of_not_mem h₁

set_option maxRecDepth 20000 in
/-- A run of C16: the labels of the example of the spec are `redis` and
`myredis`. -/
theorem normalization_labels_witness :
    12 ≤ demoID.length ∧
      normImage (lit "registry.example.com/library/redis:7") = lit "redis" ∧
      normName (lit "/myredis") = lit "myredis" ∧
      ∃ imageLabel nameLabel,
        makeAppDomains demoID (lit "registry.example.com/library/redis:7") (lit "/myredis") =
            some (sortStrings [demoID.take 12 ++ lit ".switch",
              nameLabel ++ lit "." ++ imageLabel ++ lit ".switch",
              demoID.take 12 ++ lit "." ++ imageLabel ++ lit ".switch"]) ∧
          byteOf '/' ∉ imageLabel ∧ byteOf ':' ∉ imageLabel ∧
          imageLabel <:+: lit "registry.example.com/library/redis:7" ∧
          byteOf '/' ∉ nameLabel ∧ nameLabel <:+ lit "/myredis" ∧
          (byteOf '/' ∉ lit "registry.example.com/library/redis:7" →
            byteOf ':' ∉ lit "registry.example.com/library/redis:7" →
            imageLabel = lit "registry.example.com/library/redis:7") ∧
          (byteOf '/' ∉ lit "/myredis" → nameLabel = lit "/myredis") :=
  ⟨by decide, by decide, by decide, normalization_labels demoID _ _ (by decide)⟩

/-- C17. Key encoding is invertible on domains without `/`: the key path that
`makeEtcdKeys` computes for the domain decodes to the domain (remove
`"/skydns/"`, split on `/`, reverse, join with `.`), so two such domains with
the same key path are equal. -/
theorem etcdKey_invertible (d d' : GoString) (h : byteOf '/' ∉ d) (h' : byteOf '/' ∉ d') :
    makeEtcdKeys [d] = [etcdKey d] ∧ domainOfKey (etcdKey d) = d ∧
      (etcdKey d = etcdKey d' → d = d') := by
  refine ⟨by simp [makeEtcdKeys, sortStrings], ?_, fun e => ?_⟩
  · rw [etcdKey_eq_keyPathOf, domainOfKey_keyPathOf d h]
  · have := congrArg domainOfKey e
    rwa [etcdKey_eq_keyPathOf, etcdKey_eq_keyPathOf, domainOfKey_keyPathOf d h,
      domainOfKey_keyPathOf d' h'] at this

set_option maxRecDepth 20000 in
/-- A run of C17: the key path of `abc.redis.switch` decodes to it. -/
theorem etcdKey_invertible_witness :
    byteOf '/' ∉ lit "abc.redis.switch" ∧ byteOf '/' ∉ lit "abc.switch" ∧
      etcdKey (lit "abc.redis.switch") = lit "/skydns/switch/redis/abc" ∧
      (makeEtcdKeys [lit "abc.redis.switch"] = [etcdKey (lit "abc.redis.switch")] ∧
        domainOfKey (etcdKey (lit "abc.redis.switch")) = lit "abc.redis.switch" ∧
        (etcdKey (lit "abc.redis.switch") = etcdKey (lit "abc.switch") →
          lit "abc.redis.switch" = lit "abc.switch")) :=
  ⟨by decide, by decide, by decide,
    etcdKey_invertible (lit "abc.redis.switch") (lit "abc.switch") (by decide) (by decide)⟩

/-- C18. Namespace separation: every key path that `makeEtcdKeys` returns
starts with `"/skydns/"` and is no canonical entry path `"/swtch/"+id`; so the
loop that creates these key paths leaves the value at every canonical entry
path as it was. -/
theorem makeEtcdKeys_namespace (domains : List GoString) (containerID k value : GoString)
    (w : World) (hk : k ∈ makeEtcdKeys domains) :
    lit "/skydns/" <+: k ∧ k ≠ entryPath containerID ∧
      (createKeys value (makeEtcdKeys domains) w).1.store (entryPath containerID) =
        w.store (entryPath containerID) := by
  obtain ⟨d, _, hd⟩ := mem_makeEtcdKeys.mp hk
  refine ⟨?_, ?_, ?_⟩
  · rw [← hd]; exact List.prefix_append _ _
  · rw [← hd]; exact keyPathOf_ne_entryPath d containerID
  · apply createKeys_store_of_not_mem
    intro hm
    obtain ⟨d', _, hd'⟩ := mem_makeEtcdKeys.mp hm
    exact keyPathOf_ne_entryPath d' containerID hd'

set_option maxRecDepth 20000 in
/-- A run of C18: creating the key paths of the example of the spec in
`demoStore` leaves the stored `Entry` of `demoID` as it was. -/
theorem makeEtcdKeys_namespace_witness :
    lit "/skydns/switch/redis/myredis" ∈ makeEtcdKeys demoFresh.Domains ∧
      (lit "/skydns/" <+: lit "/skydns/switch/redis/myredis" ∧
        lit "/skydns/switch/redis/myredis" ≠ entryPath demoID ∧
        (createKeys (envelope demoLib (lit "10.0.0.5")) (makeEtcdKeys demoFresh.Domains)
            ⟨demoStore, []⟩).1.store (entryPath demoID) =
          demoStore (entryPath demoID)) :=
  ⟨by decide,
    makeEtcdKeys_namespace demoFresh.Domains demoID (lit "/skydns/switch/redis/myredis")
      (envelope demoLib (lit "10.0.0.5")) ⟨demoStore, []⟩ (by decide)⟩

/-! ## The action `del` -/

/-- The action `del` with a prior `Entry` never ends the process: it deletes
the keys of the prior `Entry`, then the canonical entry path. -/
theorem deleteAction_of_prior (prior : Entry) (containerID : GoString) (w : World) :
    deleteAction (some prior) containerID w =
      (⟨Store.erase (fun k => if k ∈ prior.Keys then none else w.store k)
          (entryPath containerID),
        w.ops ++ prior.Keys.map Op.delete ++ [Op.delete (entryPath containerID)]⟩, none) := by
  simp only [deleteAction, deleteKeys_eq]
  have h₁ := kapiDelete_fst ⟨fun k => if k ∈ prior.Keys then none else w.store k,
    w.ops ++ prior.Keys.map Op.delete⟩ (entryPath containerID)
  have h₂ := kapiDelete_snd ⟨fun k => if k ∈ prior.Keys then none else w.store k,
    w.ops ++ prior.Keys.map Op.delete⟩ (entryPath containerID)
  rcases hk : kapiDelete ⟨fun k => if k ∈ prior.Keys then none else w.store k,
    w.ops ++ prior.Keys.map Op.delete⟩ (entryPath containerID) with ⟨w', err⟩
  rw [hk] at h₁ h₂
  simp only [] at h₁ h₂
  subst h₁
  rcases h₂ with h₂ | h₂ <;> subst h₂ <;> simp [isKeyNotFound]

/-- The loop that creates keys requests creates for a prefix of the keys, in
their order, however it ends. -/
theorem createKeys_ops_initial (value : GoString) : ∀ (keys : List GoString) (w : World),
    ∃ l, (createKeys value keys w).1.ops = w.ops ++ l ∧
      l <+: keys.map (fun k => Op.create k value)
  | [], w => ⟨[], by simp [createKeys]⟩
  | key :: rest, w => by
    rw [createKeys]
    cases hs : w.store key with
    | some v =>
      refine ⟨[.create key value], by simp [kapiCreate, Store.create, hs], ?_⟩
      simp only [List.map_cons]
      exact ⟨_, rfl⟩
    | none =>
      have e : kapiCreate w key value =
          (⟨w.store.put key value, w.ops ++ [.create key value]⟩, none) := by
        simp [kapiCreate, Store.create, hs]
      rw [e]
      simp only []
      obtain ⟨l, h₁, h₂⟩ := createKeys_ops_initial value rest
        ⟨w.store.put key value, w.ops ++ [.create key value]⟩
      refine ⟨.create key value :: l, by simp [h₁], ?_⟩
      simp only [List.map_cons]
      exact List.prefix_cons_inj _ |>.mpr h₂

/-- C11. Delete-reconciliation converges and is idempotent: when a `del`
iteration completes without a fatal error, no value at the canonical entry
path decodes to an `Entry` afterwards (the path is absent, unless it held a
value that decodes to the `nil` pointer, which the iteration leaves), and a
further `del` iteration for the same identifier requests no mutation, leaves
the store unchanged and completes. -/
theorem delete_reconcile_idempotent (L : GoLib) (insp : Inspection) (containerID : GoString)
    (st : Store) (obs : Observed) (hc : classify insp = .ok obs) (hs : obs.action = .del)
    (hf : (reconcile L insp containerID st).fatal = none) :
    (∀ data prior, (reconcile L insp containerID st).store (entryPath containerID) = some data →
        L.unmarshal data ≠ .ok (some prior)) ∧
      ((reconcile L insp containerID st).store (entryPath containerID) = none ∨
        ∃ v, st (entryPath containerID) = some v ∧ L.unmarshal v = .ok none) ∧
      (reconcile L insp containerID (reconcile L insp containerID st).store).ops = [] ∧
      (reconcile L insp containerID (reconcile L insp containerID st).store).store =
        (reconcile L insp containerID st).store ∧
      (reconcile L insp containerID (reconcile L insp containerID st).store).fatal = none := by
  have key : ((reconcile L insp containerID st).store (entryPath containerID) = none) ∨
      ((reconcile L insp containerID st).store = st ∧
        ∃ v, st (entryPath containerID) = some v ∧ L.unmarshal v = .ok none) := by
    rw [reconcile_of_classify L insp containerID st hc] at hf ⊢
    cases hst : st (entryPath containerID) with
    | none =>
      rw [loadPrior_of_absent L ⟨st, []⟩ containerID hst]
      simp only [hs, deleteAction]
      exact Or.inl hst
    | some v =>
      rw [loadPrior_of_present L ⟨st, []⟩ containerID hst] at hf ⊢
      cases hu : L.unmarshal v with
      | error msg => simp [hu] at hf
      | ok entry =>
        cases entry with
        | none =>
          simp only [hs, deleteAction]
          exact Or.inr ⟨trivial, v, rfl, hu⟩
        | some prior =>
          simp only [hs, deleteAction_of_prior]
          exact Or.inl (by simp [Store.erase])
  generalize (reconcile L insp containerID st).store = st₁ at key ⊢
  rcases key with h | ⟨h, v, hv, hu⟩
  · refine ⟨fun data prior hd => ?_, Or.inl h, ?_⟩
    · rw [h] at hd; cases hd
    · rw [reconcile_of_classify L insp containerID st₁ hc,
        loadPrior_of_absent L ⟨st₁, []⟩ containerID h]
      simp only [hs, deleteAction, and_self]
  · subst h
    refine ⟨fun data prior hd => ?_, Or.inr ⟨v, hv, hu⟩, ?_⟩
    · rw [hv] at hd
      cases hd
      rw [hu]
      simp
    · rw [reconcile_of_classify L insp containerID st₁ hc,
        loadPrior_of_present L ⟨st₁, []⟩ containerID hv]
      simp only [hu, hs, deleteAction, and_self]

set_option maxRecDepth 20000 in
/-- A run of C11: from `demoStore` the `del` iteration completes after three
deletes and leaves the canonical entry path absent; the second run requests
nothing. -/
theorem delete_reconcile_idempotent_witness :
    (reconcile demoLib demoGone demoID demoStore).fatal = none ∧
      (reconcile demoLib demoGone demoID demoStore).ops.length = 3 ∧
      (reconcile demoLib demoGone demoID demoStore).store (entryPath demoID) = none ∧
      ((∀ data prior,
          (reconcile demoLib demoGone demoID demoStore).store (entryPath demoID) = some data →
            demoLib.unmarshal data ≠ .ok (some prior)) ∧
        ((reconcile demoLib demoGone demoID demoStore).store (entryPath demoID) = none ∨
          ∃ v, demoStore (entryPath demoID) = some v ∧ demoLib.unmarshal v = .ok none) ∧
        (reconcile demoLib demoGone demoID
          (reconcile demoLib demoGone demoID demoStore).store).ops = [] ∧
        (reconcile demoLib demoGone demoID
            (reconcile demoLib demoGone demoID demoStore).store).store =
          (reconcile demoLib demoGone demoID demoStore).store ∧
        (reconcile demoLib demoGone demoID
          (reconcile demoLib demoGone demoID demoStore).store).fatal = none) :=
  ⟨by decide, by decide, by decide,
    delete_reconcile_idempotent demoLib demoGone demoID demoStore ⟨.del, [], [], []⟩ rfl rfl
      (by decide)⟩

/-- C12. Set followed by delete restores the store: from a store that holds
no `Entry` at the canonical entry path, when the `set` iteration completes
without a fatal error (which requires that the path and the desired key paths
were absent from the store), a `del` iteration for the same identifier
completes and leaves the original store.  The JSON library is a parameter;
what is used of it is that the stored serialization of the fresh `Entry`
decodes to an `Entry` with the same keys. -/
theorem set_then_delete_restores (L : GoLib) (insp₁ insp₂ : Inspection)
    (containerID : GoString) (st : Store) (obs₁ obs₂ : Observed) (e e' : Entry)
    (data : GoString)
    (hc₁ : classify insp₁ = .ok obs₁) (hs₁ : obs₁.action = .set)
    (hc₂ : classify insp₂ = .ok obs₂) (hs₂ : obs₂.action = .del)
    (hno : ∀ v prior, st (entryPath containerID) = some v → L.unmarshal v ≠ .ok (some prior))
    (hne : newEntry containerID obs₁.image obs₁.name obs₁.ipAddr = some e)
    (hm : L.marshal e = .ok data)
    (hu : L.unmarshal data = .ok (some e')) (hk : e'.Keys = e.Keys)
    (hf : (reconcile L insp₁ containerID st).fatal = none) :
    st (entryPath containerID) = none ∧ (∀ k ∈ e.Keys, st k = none) ∧
      (reconcile L insp₂ containerID (reconcile L insp₁ containerID st).store).fatal = none ∧
      (reconcile L insp₂ containerID (reconcile L insp₁ containerID st).store).store = st := by
  have hst : st (entryPath containerID) = none := by
    cases hv : st (entryPath containerID) with
    | none => rfl
    | some v =>
      exfalso
      rw [reconcile_of_classify L insp₁ containerID st hc₁,
        loadPrior_of_present L ⟨st, []⟩ containerID hv] at hf
      cases hu' : L.unmarshal v with
      | error msg => simp [hu'] at hf
      | ok entry =>
        cases entry with
        | some prior => exact hno v prior hv hu'
        | none =>
          simp only [hu', hs₁] at hf
          obtain ⟨c₁, _, _⟩ := setAction_created L obs₁ v containerID ⟨st, []⟩ hne hm hf
          have c₁' : st (entryPath containerID) = none := c₁
          rw [hv] at c₁'; cases c₁'
  refine ⟨hst, ?_⟩
  rw [reconcile_of_classify L insp₁ containerID st hc₁,
    loadPrior_of_absent L ⟨st, []⟩ containerID hst] at hf ⊢
  simp only [hs₁] at hf ⊢
  obtain ⟨_, c₂, c₃⟩ := setAction_created L obs₁ [] containerID ⟨st, []⟩ hne hm hf
  have hnot : entryPath containerID ∉ e.Keys := by
    intro hmem
    have := c₂ _ hmem
    simp [Store.put] at this
  have habs : ∀ k ∈ e.Keys, st k = none := by
    intro k hk'
    have hne' : k ≠ entryPath containerID := fun e' => hnot (e' ▸ hk')
    have := c₂ k hk'
    simpa [Store.put, hne'] using this
  rw [c₃]
  simp only []
  have hget : (fun k => if k ∈ e.Keys then some (envelope L e.Addr)
      else Store.put st (entryPath containerID) data k) (entryPath containerID) = some data := by
    simp [hnot, Store.put]
  rw [reconcile_of_classify L insp₂ containerID _ hc₂,
    loadPrior_of_present L ⟨_, []⟩ containerID hget]
  simp only [hu, hs₂, deleteAction_of_prior, hk]
  refine ⟨habs, trivial, ?_⟩
  funext k
  by_cases h₁ : k = entryPath containerID
  · simp [Store.erase, h₁, hst]
  · by_cases h₂ : k ∈ e.Keys
    · simp [Store.erase, h₁, h₂, habs k h₂]
    · simp [Store.erase, Store.put, h₁, h₂]

set_option maxRecDepth 20000 in
/-- A run of C12: on the empty store, `set` for the running container, then
`del` once it is gone. -/
theorem set_then_delete_restores_witness :
    (reconcile demoLib demoRunning demoID emptyStore).fatal = none ∧
      (reconcile demoLib demoRunning demoID emptyStore).store (entryPath demoID) =
        some (demoMarshal demoFresh) ∧
      (emptyStore (entryPath demoID) = none ∧ (∀ k ∈ demoFresh.Keys, emptyStore k = none) ∧
        (reconcile demoLib demoGone demoID
          (reconcile demoLib demoRunning demoID emptyStore).store).fatal = none ∧
        (reconcile demoLib demoGone demoID
          (reconcile demoLib demoRunning demoID emptyStore).store).store = emptyStore) :=
  ⟨by decide, by decide,
    set_then_delete_restores demoLib demoRunning demoGone demoID emptyStore demoObserved
      ⟨.del, [], [], []⟩ demoFresh ⟨[], demoFresh.Keys, demoFresh.Addr⟩ (demoMarshal demoFresh)
      rfl rfl rfl rfl (fun _ _ hv => by cases hv) (by decide) rfl rfl rfl (by decide)⟩

/-- The mutations of the action `set` when it is not a no-op, from a state
without earlier mutations: the writing of the canonical entry path in full,
then creates for a prefix of the keys of the fresh `Entry`. -/
theorem setAction_ops (L : GoLib) (obs : Observed) (entry : Option Entry)
    (entryData containerID : GoString) (st : Store) {e : Entry} {data : GoString}
    (hne : newEntry containerID obs.image obs.name obs.ipAddr = some e)
    (hm : L.marshal e = .ok data) (hnoop : ∀ prior, entry = some prior → data ≠ entryData) :
    ∃ l, (setAction L obs entry entryData containerID ⟨st, []⟩).1.ops =
        entryWrite entry containerID data ++ l ∧
      l <+: e.Keys.map (fun k => Op.create k (envelope L e.Addr)) := by
  cases entry with
  | none =>
    unfold setAction
    simp only [hne, hm, entryWrite]
    cases hst : st (entryPath containerID) with
    | some v => exact ⟨[], by simp [kapiCreate, Store.create, hst], List.nil_prefix⟩
    | none =>
      have e₁ : kapiCreate ⟨st, []⟩ (entryPath containerID) data =
          (⟨st.put (entryPath containerID) data, [.create (entryPath containerID) data]⟩,
            none) := by
        simp [kapiCreate, Store.create, hst]
      rw [e₁]
      simp only []
      exact createKeys_ops_initial _ _ _
  | some prior =>
    have hd := hnoop prior rfl
    unfold setAction
    simp only [hne, hm, hd, if_false, deleteKeys_eq, entryWrite, List.nil_append]
    cases hk : (if entryPath containerID ∈ prior.Keys then none
        else st (entryPath containerID)) with
    | none => exact ⟨[], by simp [kapiUpdate, Store.update, hk], List.nil_prefix⟩
    | some v =>
      have e₁ : kapiUpdate ⟨fun k => if k ∈ prior.Keys then none else st k,
            prior.Keys.map Op.delete⟩ (entryPath containerID) data =
          (⟨Store.put (fun k => if k ∈ prior.Keys then none else st k)
              (entryPath containerID) data,
            prior.Keys.map Op.delete ++ [.update (entryPath containerID) data]⟩, none) := by
        simp [kapiUpdate, Store.update, hk]
      rw [e₁]
      simp only []
      exact createKeys_ops_initial _ _ _

/-- C14. Set-action sequencing: a `set` iteration that is not a no-op first
requests the writing of the canonical entry path in full (with a prior
`Entry`: one delete per key path of it, then one update; without: one create
and no delete), and after it only creates of the key paths of the fresh
`Entry`, in the order of its keys; when the iteration completes, it has
requested one create for every key path. -/
theorem set_action_sequence (L : GoLib) (insp : Inspection) (containerID : GoString)
    (st : Store) (obs : Observed) (entry : Option Entry) (entryData : GoString) (e : Entry)
    (data : GoString)
    (hc : classify insp = .ok obs) (hs : obs.action = .set)
    (hl : loadPrior L ⟨st, []⟩ containerID = .ok (entry, entryData))
    (hne : newEntry containerID obs.image obs.name obs.ipAddr = some e)
    (hm : L.marshal e = .ok data) (hnoop : ∀ prior, entry = some prior → data ≠ entryData) :
    entryWrite entry containerID data <+: (reconcile L insp containerID st).ops ∧
      (reconcile L insp containerID st).ops <+: setSequence L entry containerID e data ∧
      ((reconcile L insp containerID st).fatal = none →
        (reconcile L insp containerID st).ops = setSequence L entry containerID e data) := by
  rw [reconcile_of_classify L insp containerID st hc, hl]
  simp only [hs]
  obtain ⟨l, h₁, h₂⟩ := setAction_ops L obs entry entryData containerID st hne hm hnoop
  refine ⟨?_, ?_, fun hf => ?_⟩
  · rw [h₁]; exact List.prefix_append _ _
  · rw [h₁, setSequence]; exact (List.prefix_append_right_inj _).mpr h₂
  · cases entry with
    | none =>
      obtain ⟨_, _, c₃⟩ := setAction_created L obs entryData containerID ⟨st, []⟩ hne hm hf
      rw [c₃]
      simp [setSequence, entryWrite]
    | some prior =>
      obtain ⟨_, _, c₃⟩ := setAction_changed L obs prior entryData containerID ⟨st, []⟩
        hne hm (hnoop prior rfl) hf
      rw [c₃]
      simp [setSequence, entryWrite]

set_option maxRecDepth 20000 in
/-- A run of C14: from `demoStore`, two deletes, one update, three creates. -/
theorem set_action_sequence_witness :
    (reconcile demoLib demoRunning demoID demoStore).ops =
        [.delete (lit "/skydns/switch/old"), .delete (lit "/skydns/switch/redis/old"),
          .update (entryPath demoID) (demoMarshal demoFresh),
          .create (lit "/skydns/switch/a1b2c3d4e5f6") (envelope demoLib (lit "10.0.0.5")),
          .create (lit "/skydns/switch/redis/a1b2c3d4e5f6") (envelope demoLib (lit "10.0.0.5")),
          .create (lit "/skydns/switch/redis/myredis") (envelope demoLib (lit "10.0.0.5"))] ∧
      (entryWrite (some demoPrior) demoID (demoMarshal demoFresh) <+:
          (reconcile demoLib demoRunning demoID demoStore).ops ∧
        (reconcile demoLib demoRunning demoID demoStore).ops <+:
          setSequence demoLib (some demoPrior) demoID demoFresh (demoMarshal demoFresh) ∧
        ((reconcile demoLib demoRunning demoID demoStore).fatal = none →
          (reconcile demoLib demoRunning demoID demoStore).ops =
            setSequence demoLib (some demoPrior) demoID demoFresh (demoMarshal demoFresh))) :=
  ⟨by decide,
    set_action_sequence demoLib demoRunning demoID demoStore demoObserved (some demoPrior)
      (demoMarshal demoPrior) demoFresh (demoMarshal demoFresh) rfl rfl rfl rfl rfl
      (fun _ _ => by decide)⟩

/-! ## Distinct names -/

theorem not_mem_normImage (image : GoString) : byteOf '/' ∉ normImage image := fun hm =>
  not_mem_dropThroughLast _ image ((dropFromFirst_initial _ _).subset hm)

/-- When the three names of the spec are pairwise distinct. -/
theorem nodup_three_names (p nm img : GoString) :
    [p ++ lit ".switch", nm ++ lit "." ++ img ++ lit ".switch",
        p ++ lit "." ++ img ++ lit ".switch"].Nodup ↔
      nm ≠ p ∧ p ≠ nm ++ lit "." ++ img := by
  have hAC : p ++ lit ".switch" ≠ p ++ lit "." ++ img ++ lit ".switch" := by
    intro e
    have := congrArg List.length e
    simp only [List.length_append] at this
    have h₁ : (lit ".switch").length = 7 := rfl
    have h₂ : (lit ".").length = 1 := rfl
    omega
  have hAB : p ++ lit ".switch" = nm ++ lit "." ++ img ++ lit ".switch" ↔
      p = nm ++ lit "." ++ img := List.append_left_inj _
  have hBC : nm ++ lit "." ++ img ++ lit ".switch" = p ++ lit "." ++ img ++ lit ".switch" ↔
      nm = p := by
    rw [List.append_left_inj, List.append_left_inj, List.append_left_inj]
  simp only [List.nodup_cons, List.mem_cons, List.mem_singleton, List.not_mem_nil,
    not_false_eq_true, List.nodup_nil, and_true, not_or, hAB, hBC]
  constructor
  · rintro ⟨⟨h₁, _⟩, h₂⟩
    exact ⟨h₂, h₁⟩
  · rintro ⟨h₁, h₂⟩
    exact ⟨⟨h₂, hAC⟩, h₁⟩

/-- The three names of the spec have no `/` when the first 12 bytes of the
identifier have none. -/
theorem not_mem_three_names (p image name d : GoString) (hp : byteOf '/' ∉ p)
    (hd : d ∈ [p ++ lit ".switch", normName name ++ lit "." ++ normImage image ++ lit ".switch",
      p ++ lit "." ++ normImage image ++ lit ".switch"]) : byteOf '/' ∉ d := by
  have h₁ : byteOf '/' ∉ lit ".switch" := by decide
  have h₂ : byteOf '/' ∉ lit "." := by decide
  have h₃ := not_mem_normImage image
  have h₄ : byteOf '/' ∉ normName name := not_mem_dropThroughLast _ name
  simp only [List.mem_cons, List.mem_singleton, List.not_mem_nil, or_false] at hd
  rcases hd with hd | hd | hd <;> subst hd <;> simp [hp, h₁, h₂, h₃, h₄]

set_option maxRecDepth 20000 in
/-- C13, as stated, fails: for a container whose name is the first 12 bytes of
its identifier, two of the three names are equal; the `set` iteration then
ends the process when it creates the second of two equal key paths. -/
theorem makeAppDomains_duplicate_names :
    12 ≤ demoID.length ∧
      makeAppDomains demoID (lit "redis") (lit "/a1b2c3d4e5f6") =
        some [lit "a1b2c3d4e5f6.redis.switch", lit "a1b2c3d4e5f6.redis.switch",
          lit "a1b2c3d4e5f6.switch"] ∧
      ¬ (∀ names, makeAppDomains demoID (lit "redis") (lit "/a1b2c3d4e5f6") = some names →
        names.Nodup) ∧
      (reconcile demoLib demoSelfNamed demoID emptyStore).fatal =
        some (.logFatal .nodeExist) := by
  have h : makeAppDomains demoID (lit "redis") (lit "/a1b2c3d4e5f6") =
      some [lit "a1b2c3d4e5f6.redis.switch", lit "a1b2c3d4e5f6.redis.switch",
        lit "a1b2c3d4e5f6.switch"] := by decide
  refine ⟨by decide, h, fun hall => ?_, by decide⟩
  have := hall _ h
  simp at this

/-- C13, amended. For an identifier of at least 12 bytes, the three names that
`makeAppDomains` returns are pairwise distinct exactly when the normalized
name is not the first 12 bytes of the identifier and these 12 bytes are not
the normalized name, `.` and the normalized image; when the 12 bytes have no
`/`, the three key paths are pairwise distinct exactly when the names are. -/
theorem makeAppDomains_nodup_iff (containerID image name : GoString)
    (h : 12 ≤ containerID.length) :
    ∃ names, makeAppDomains containerID image name = some names ∧
      (names.Nodup ↔ normName name ≠ containerID.take 12 ∧
        containerID.take 12 ≠ normName name ++ lit "." ++ normImage image) ∧
      (byteOf '/' ∉ containerID.take 12 → ((makeEtcdKeys names).Nodup ↔ names.Nodup)) := by
  rw [makeAppDomains_eq, if_pos h]
  refine ⟨_, rfl, ?_, fun hp => ?_⟩
  · rw [(sortStrings_perm _).nodup_iff, nodup_three_names]
  · rw [makeEtcdKeys_eq, (sortStrings_perm _).nodup_iff]
    constructor
    · exact List.Nodup.of_map _
    · refine List.Nodup.map_on (fun x hx y hy e => ?_)
      have hx' := not_mem_three_names _ image name x hp (mem_sortStrings.mp hx)
      have hy' := not_mem_three_names _ image name y hp (mem_sortStrings.mp hy)
      have := congrArg domainOfKey e
      rwa [domainOfKey_keyPathOf x hx', domainOfKey_keyPathOf y hy'] at this

set_option maxRecDepth 20000 in
/-- A run of the amended C13: the three names of the example of the spec are
pairwise distinct, and so are their key paths. -/
theorem makeAppDomains_nodup_iff_witness :
    12 ≤ demoID.length ∧ demoFresh.Domains.Nodup ∧ demoFresh.Keys.Nodup ∧
      ∃ names, makeAppDomains demoID (lit "registry.example.com/library/redis:7")
          (lit "/myredis") = some names ∧
        (names.Nodup ↔ normName (lit "/myredis") ≠ demoID.take 12 ∧
          demoID.take 12 ≠ normName (lit "/myredis") ++ lit "." ++
            normImage (lit "registry.example.com/library/redis:7")) ∧
        (byteOf '/' ∉ demoID.take 12 → ((makeEtcdKeys names).Nodup ↔ names.Nodup)) :=
  ⟨by decide, by decide, by decide, makeAppDomains_nodup_iff demoID _ _ (by decide)⟩

end DockerSwitch
